import Mathlib

/-!
Verification of the ghostsweep-api sweep pipeline against its specification.

The TypeScript sources are shallowly embedded: strings are lists of
characters (`Str`), JS string primitives (`toLowerCase`, `trim`, `split`,
`join`, regex-literal substring tests) are re-implemented as executable Lean
functions with the same behaviour on the inputs that occur, asynchronous
code is modelled by explicit outcome parameters (one value per external
call), and the relational store / HTTP collaborators are abstracted as
function-typed parameters whose results drive the control flow exactly as
in the source.  Machine numbers are modelled as `Nat`/`Int` (JS number
arithmetic on these code paths stays well inside the exact-integer range
of IEEE doubles, so exact integer arithmetic is faithful).
-/

/-- Decidable equality for `Except`, used to evaluate concrete runs. -/
instance exceptDecEq {ε α : Type _} [DecidableEq ε] [DecidableEq α] :
    DecidableEq (Except ε α) := fun x y =>
  match x, y with
  | Except.ok a, Except.ok b =>
    match decEq a b with
    | isTrue h => isTrue (by rw [h])
    | isFalse h => isFalse (by intro k; injection k; contradiction)
  | Except.error a, Except.error b =>
    match decEq a b with
    | isTrue h => isTrue (by rw [h])
    | isFalse h => isFalse (by intro k; injection k; contradiction)
  | Except.ok _, Except.error _ => isFalse (by intro k; exact Except.noConfusion k)
  | Except.error _, Except.ok _ => isFalse (by intro k; exact Except.noConfusion k)

/-- JS strings, modelled as lists of characters. -/
abbrev Str := List Char

/-- Convert a Lean string literal to the `Str` representation. -/
def strL (s : String) : Str := s.toList

/-- ASCII lower-casing of one character (JS `toLowerCase` restricted to the
ASCII range, which covers every character these code paths inspect). -/
def lowerChar (c : Char) : Char :=
  if 65 ≤ c.toNat ∧ c.toNat ≤ 90 then Char.ofNat (c.toNat + 32) else c

/-- JS `String.prototype.toLowerCase` (ASCII fragment). -/
def lowerStr (s : Str) : Str := s.map lowerChar

/-- Whitespace as stripped by JS `trim` (ASCII fragment). -/
def isWsChar (c : Char) : Bool :=
  c = ' ' || c = '\t' || c = '\n' || c = '\r'

/-- JS `String.prototype.trim`. -/
def trimStr (s : Str) : Str :=
  ((s.dropWhile isWsChar).reverse.dropWhile isWsChar).reverse

/-- JS `host.replace(/\.+$/, "")`: drop every trailing dot. -/
def stripTrailingDots (s : Str) : Str :=
  (s.reverse.dropWhile (fun c => c = '.')).reverse

/-- Auxiliary for `splitCh`: first segment and remaining segments. -/
def splitChAux (sep : Char) : Str → Str × List Str
  | [] => ([], [])
  | c :: cs =>
    let r := splitChAux sep cs
    if c = sep then ([], r.1 :: r.2) else (c :: r.1, r.2)

/-- JS `String.prototype.split` with a single-character separator. -/
def splitCh (sep : Char) (s : Str) : List Str :=
  (splitChAux sep s).1 :: (splitChAux sep s).2

/-- JS `Array.prototype.join(".")` on a list of strings. -/
def joinDots : List Str → Str
  | [] => []
  | [x] => x
  | x :: y :: rest => x ++ '.' :: joinDots (y :: rest)

/-- JS `Array.prototype.join(" ")` on a list of strings. -/
def joinSpace : List Str → Str
  | [] => []
  | [x] => x
  | x :: y :: rest => x ++ ' ' :: joinSpace (y :: rest)

/-- JS `arr.slice(-n)`: the last `n` elements. -/
def lastN (n : Nat) (l : List Str) : List Str := l.drop (l.length - n)

/-- Boolean test that the first list is a prefix of the second. -/
def isPrefixB : Str → Str → Bool
  | [], _ => true
  | _ :: _, [] => false
  | p :: ps, c :: cs => p = c && isPrefixB ps cs

/-- Boolean test that `needle` occurs as a contiguous substring of the
argument (JS regex-literal `.test` on alternations of literals,
`String.prototype.includes`). -/
def substrOf (needle : Str) : Str → Bool
  | [] => isPrefixB needle []
  | c :: rest => isPrefixB needle (c :: rest) || substrOf needle rest

/-- JS `String.prototype.endsWith`. -/
def endsW (s suf : Str) : Bool := decide (s.drop (s.length - suf.length) = suf)

/-- Association lookup by string key (JS object-literal indexing). -/
def findPair : List (Str × Str) → Str → Option Str
  | [], _ => none
  | (k, v) :: rest, s => if s = k then some v else findPair rest s

/-! ## Domain canonicalization (src/utils/encryption.ts, "utils/domains.ts" part) -/

/-- Table `IGNORED_PREFIXES`: labels never treated as the brand. -/
def ignoredLabels : List Str :=
  [strL ("www"), strL ("noreply"), strL ("no-reply"), strL ("info"),
   strL ("support"), strL ("notifications"), strL ("accounts"), strL ("team"),
   strL ("hello"), strL ("mail"), strL ("updates"), strL ("announce"),
   strL ("auth"), strL ("auths"), strL ("app")]

/-- Table `MULTIPART_SUFFIXES`: common multi-part public suffixes. -/
def multipartSuffixes : List Str :=
  [strL ("co.uk"), strL ("com.au"), strL ("co.jp"), strL ("com.br"),
   strL ("com.gh"), strL ("com.ng"), strL ("co.za")]

/-- Table `ALIAS_EXACT`: mail hosts mapped directly to their brand domain. -/
def aliasExact : List (Str × Str) :=
  [(strL ("facebookmail.com"), strL ("facebook.com")),
   (strL ("amazonses.com"), strL ("amazon.com")),
   (strL ("reply.github.com"), strL ("github.com")),
   (strL ("githubmail.com"), strL ("github.com")),
   (strL ("mail.twitter.com"), strL ("twitter.com")),
   (strL ("e.uber.com"), strL ("uber.com")),
   (strL ("mail.netflix.com"), strL ("netflix.com"))]

/-- Table `ALIAS_SUFFIX`: any subdomain of these hosts points to the brand. -/
def aliasSuffix : List (Str × Str) :=
  [(strL ("github.com"), strL ("github.com")),
   (strL ("twitter.com"), strL ("twitter.com")),
   (strL ("uber.com"), strL ("uber.com")),
   (strL ("netflix.com"), strL ("netflix.com"))]

/-- The `while` loop of `toBaseDomain`: drop noisy leading labels while more
than two labels remain. -/
def dropIgnored : List Str → List Str
  | x :: y :: z :: rest =>
    if x ∈ ignoredLabels then dropIgnored (y :: z :: rest) else x :: y :: z :: rest
  | l => l

/-- Function `toBaseDomain`: reduce a hostname to its base domain. -/
def toBaseDomain (host : Str) : Str :=
  let parts := (splitCh '.' (trimStr (lowerStr host))).filter (fun l => l ≠ [])
  if parts.length ≤ 1 then host
  else
    let parts2 := dropIgnored parts
    if parts2.length ≤ 2 then joinDots parts2
    else
      let lastTwo := joinDots (lastN 2 parts2)
      let lastThree := joinDots (lastN 3 parts2)
      if lastTwo ∈ multipartSuffixes ∧ 3 ≤ parts2.length then lastThree else lastTwo

/-- The host-level part of `extractDomain`: normalize the host (lower-case,
trim, strip trailing dots), apply the exact alias table, compute the base
domain, then apply the suffix alias table.  This is the canonicalization the
spec describes, applied to everything after the `@`. -/
def canonicalizeHost (host : Str) : Option Str :=
  let h1 := stripTrailingDots (trimStr (lowerStr host))
  if h1 = [] then none
  else
    match findPair aliasExact h1 with
    | some b => some b
    | none =>
      let base := toBaseDomain h1
      match aliasSuffix.find? (fun p => base = p.1 || endsW base ('.' :: p.1)) with
      | some p => some p.2
      | none => some base

/-- Regex `/<([^>]+)>/` (first match): capture the nonempty run of
non-`>` characters after a `<` that is followed by `>`. -/
def capAngle : Str → Option Str
  | [] => none
  | '<' :: rest =>
    let run := rest.takeWhile (fun c => c ≠ '>')
    if run ≠ [] ∧ rest.drop run.length ≠ [] then some run
    else capAngle rest
  | _ :: rest => capAngle rest

/-- Regex `/<(.+?)>/` (first, lazy match): capture the shortest nonempty
newline-free run after a `<` that is terminated by `>`.  `.` matches `>`
itself, so the terminator is the first `>` strictly after the first
captured character. -/
def capAngleLazyGo (acc : Str) : Str → Option Str
  | [] => none
  | c :: rest =>
    if c = '>' then some acc.reverse
    else if c = '\n' ∨ c = '\r' then none
    else capAngleLazyGo (c :: acc) rest

/-- Scanner for `/<(.+?)>/`: try each `<` from the left. -/
def capAngleLazy : Str → Option Str
  | [] => none
  | '<' :: rest =>
    (match rest with
     | [] => none
     | c :: rest2 =>
       if c = '\n' ∨ c = '\r' then capAngleLazy rest
       else match capAngleLazyGo [c] rest2 with
            | some cap => some cap
            | none => capAngleLazy rest)
  | _ :: rest => capAngleLazy rest

/-- Character classes of the fallback email regex
`/[a-zA-Z0-9._%+-]+@[a-zA-Z0-9.-]+\.[a-zA-Z]{2,}/`. -/
def alphaB (c : Char) : Bool :=
  (97 ≤ c.toNat && c.toNat ≤ 122) || (65 ≤ c.toNat && c.toNat ≤ 90)

def digitB (c : Char) : Bool := 48 ≤ c.toNat && c.toNat ≤ 57

def localChar (c : Char) : Bool :=
  alphaB c || digitB c || c = '.' || c = '_' || c = '%' || c = '+' || c = '-'

def domChar (c : Char) : Bool := alphaB c || digitB c || c = '.' || c = '-'

/-- Backtracking step of the email regex: among positions of `rest2`
(the text after `@`), find the largest index `d ≥ 1` that holds a literal
`.` followed by at least two letters.  `n` is the candidate index tried
first; indices descend as the regex engine backtracks. -/
def pickDot (rest2 : Str) : Nat → Option Nat
  | 0 => none
  | n + 1 =>
    if rest2.get? (n + 1) = some '.' ∧
       2 ≤ ((rest2.drop (n + 2)).takeWhile alphaB).length
    then some (n + 1) else pickDot rest2 n

/-- Try the email regex anchored at the current position. -/
def emailMatchAt (t : Str) : Option Str :=
  let locRun := t.takeWhile localChar
  if locRun = [] then none
  else
    match t.drop locRun.length with
    | '@' :: rest2 =>
      let domRun := rest2.takeWhile domChar
      match pickDot rest2 (domRun.length - 1) with
      | some d =>
        some (locRun ++ '@' :: (rest2.take d) ++
              '.' :: ((rest2.drop (d + 1)).takeWhile alphaB))
      | none => none
    | _ => none

/-- Leftmost match of the fallback email regex. -/
def emailMatch : Str → Option Str
  | [] => none
  | c :: rest =>
    match emailMatchAt (c :: rest) with
    | some m => some m
    | none => emailMatch rest

/-- Function `extractEmailAddress` (src/utils/encryption.ts, "extraction.ts"
part): bracketed address first, then a bare address-like substring. -/
def extractEmailAddress (fromH : Str) : Option Str :=
  if fromH = [] then none
  else
    match capAngle fromH with
    | some cap => some (trimStr cap)
    | none =>
      match emailMatch fromH with
      | some m => some (trimStr m)
      | none => none

/-- Function `extractDomain`: canonical domain of an email address (`null`
in, `null` out; requires exactly one `@`). -/
def extractDomain : Option Str → Option Str
  | none => none
  | some email =>
    if email = [] then none
    else
      let raw := match capAngleLazy email with
                 | some cap => cap
                 | none => email
      match splitCh '@' raw with
      | [_loc, host] => canonicalizeHost host
      | _ => none

/-! ## Confidence scoring and spam filtering (src/utils/helpers.ts) -/

/-- The duck-typed `Summary` interface consumed by `calculateConfidenceScore`
and `isLikelySpam`; every field is optional in the source. -/
structure Summary where
  domain : Option Str
  subject : Option Str
  subjects : Option (List Str)
  fromH : Option Str
  emailCount : Option Nat
deriving DecidableEq

/-- Regex-alternation test: some literal of `pats` occurs in `s`. -/
def patAny (pats : List Str) (s : Str) : Bool := pats.any (fun p => substrOf p s)

/-- The apostrophe character (kept out of string literals). -/
def apos : Char := Char.ofNat 39

/-- Literal `you're all set` from the onboarding regex. -/
def youreAllSet : Str := strL ("you") ++ apos :: strL ("re all set")

/-- Regex `/account created|welcome to|registration successful|you're all set/`. -/
def onboardingPats : List Str :=
  [strL ("account created"), strL ("welcome to"),
   strL ("registration successful"), youreAllSet]

/-- Regex `/verify your email|confirm your email|verify your account/`. -/
def verifyPats : List Str :=
  [strL ("verify your email"), strL ("confirm your email"),
   strL ("verify your account")]

/-- Regex `/password reset|security alert|two-factor|2fa|verification code/`. -/
def securityPats : List Str :=
  [strL ("password reset"), strL ("security alert"), strL ("two-factor"),
   strL ("2fa"), strL ("verification code")]

/-- Regex `/receipt|order confirmation|invoice|payment received|purchase/`. -/
def transactPats : List Str :=
  [strL ("receipt"), strL ("order confirmation"), strL ("invoice"),
   strL ("payment received"), strL ("purchase")]

/-- Regex `/subscription|trial started|billing|renewed/`. -/
def subscriptionPats : List Str :=
  [strL ("subscription"), strL ("trial started"), strL ("billing"),
   strL ("renewed")]

/-- Regex `/account closed|account deletion|reactivate/`. -/
def mgmtPats : List Str :=
  [strL ("account closed"), strL ("account deletion"), strL ("reactivate")]

/-- Regex `/noreply@|no-reply@|notifications@|accounts@/` on the sender. -/
def fromAutoPats : List Str :=
  [strL ("noreply@"), strL ("no-reply@"), strL ("notifications@"),
   strL ("accounts@")]

/-- Regex `/noreply|no-reply|notifications|accounts/` on the domain. -/
def domainAutoPats : List Str :=
  [strL ("noreply"), strL ("no-reply"), strL ("notifications"),
   strL ("accounts")]

/-- Regex `/(gmail|yahoo|hotmail|outlook|aol|icloud)\.com/`. -/
def freemailPats : List Str :=
  [strL ("gmail.com"), strL ("yahoo.com"), strL ("hotmail.com"),
   strL ("outlook.com"), strL ("aol.com"), strL ("icloud.com")]

/-- The shared expression
`(summary.subjects || [summary.subject] || []).filter(Boolean).join(" ").toLowerCase()`
(an absent `subjects` array falls back to the one-element array of the
optional `subject`; `filter(Boolean)` drops absent and empty entries). -/
def subjBlob (summary : Summary) : Str :=
  lowerStr (joinSpace
    (((match summary.subjects with
       | some l => l
       | none => match summary.subject with
                 | some x => [x]
                 | none => []).filter (fun x => x ≠ []))))

/-- Function `calculateConfidenceScore`: additive sum of keyword, sender and
volume signals. -/
def calculateConfidenceScore (summary : Summary) : Nat :=
  let domain := lowerStr (summary.domain.getD [])
  let allSubjects := subjBlob summary
  let fromA := lowerStr (summary.fromH.getD [])
  let s1 := if patAny onboardingPats allSubjects then 10 else 0
  let s2 := if patAny verifyPats allSubjects then 9 else 0
  let s3 := if patAny securityPats allSubjects then 8 else 0
  let s4 := if patAny transactPats allSubjects then 7 else 0
  let s5 := if patAny subscriptionPats allSubjects then 6 else 0
  let s6 := if patAny mgmtPats allSubjects then 5 else 0
  let s7 := if patAny fromAutoPats fromA || patAny domainAutoPats domain then 4 else 0
  let s8 := if !(patAny freemailPats domain) then 3 else 0
  let emailCount := summary.emailCount.getD 0
  let s9 := if 20 ≤ emailCount then 6
            else if 10 ≤ emailCount then 4
            else if 5 ≤ emailCount then 2
            else if 2 ≤ emailCount then 1
            else 0
  s1 + s2 + s3 + s4 + s5 + s6 + s7 + s8 + s9

/-- Spam regex literals of `isLikelySpam` (all `/i`; the tested text is
already lower-cased). -/
def spamPats : List Str :=
  [strL ("unsubscribe"), strL ("newsletter"), strL ("daily digest"),
   strL ("weekly summary"), strL ("promotional"), strL ("limited time offer"),
   strL ("act now"), strL ("click here")]

/-- Bulk-mail provider fragments of `isLikelySpam`. -/
def spamDomains : List Str :=
  [strL ("mailchimp"), strL ("sendgrid"), strL ("constantcontact")]

/-- Function `isLikelySpam`: subjects match a spam pattern or the domain
contains a bulk-mailer fragment. -/
def isLikelySpam (summary : Summary) : Bool :=
  let domain := lowerStr (summary.domain.getD [])
  let allSubjects := subjBlob summary
  patAny spamPats allSubjects || spamDomains.any (fun d => substrOf d domain)

/-! ## Domain aggregation (src/utils/summarize-by-domain.ts) -/

/-- The `contactConfidence` union type `"high" | "medium" | "low"`. -/
inductive Conf
  | high
  | medium
  | low
deriving DecidableEq

/-- Email metadata consumed by `summarizeByDomain`. -/
structure EmailMeta where
  fromH : Str
  subject : Str
  date : Str
  internalDate : Option Str
deriving DecidableEq

/-- The per-domain accumulator of the first pass of `summarizeByDomain`. -/
structure DomainGroup where
  emailCount : Nat
  firstSeenAt : Option Str
  lastSeenAt : Option Str
  subject : Str
  subjects : List Str
  fromAddresses : List Str
deriving DecidableEq

/-- The transient `DomainAggregate` record produced per domain. -/
structure DomainAggregate where
  domain : Str
  emailCount : Nat
  firstSeenAt : Option Str
  lastSeenAt : Option Str
  serviceId : Option Str
  subject : Str
  subjects : List Str
  supportEmail : Option Str
  privacyEmail : Option Str
  contactConfidence : Conf
deriving DecidableEq

/-- JS `<` on strings: lexicographic comparison by code unit. -/
def strLt : Str → Str → Bool
  | [], [] => false
  | [], _ :: _ => true
  | _ :: _, [] => false
  | a :: as_, b :: bs =>
    if a.toNat < b.toNat then true
    else if b.toNat < a.toNat then false
    else strLt as_ bs

/-- The timestamp expression
`meta.internalDate || (meta.date ? new Date(meta.date).toISOString() : null)`.
Parsing a date header to an ISO instant is delegated to the external
`Date` runtime, abstracted as `parseDateIso`. -/
def isoOf (parseDateIso : Str → Str) (m : EmailMeta) : Option Str :=
  match m.internalDate with
  | some s =>
    if s ≠ [] then some s
    else if m.date ≠ [] then some (parseDateIso m.date) else none
  | none => if m.date ≠ [] then some (parseDateIso m.date) else none

/-- The mutation applied to a group entry for one metadata record
(count increment, subject/sender collection, first/last-seen update;
JS falsy checks on the optional strings included). -/
def updateGroup (iso : Option Str) (m : EmailMeta) (g : DomainGroup) : DomainGroup :=
  let g1 := { g with emailCount := g.emailCount + 1 }
  let g2 := if m.subject ≠ [] then { g1 with subjects := g1.subjects ++ [m.subject] } else g1
  let g3 := if m.fromH ≠ [] then { g2 with fromAddresses := g2.fromAddresses ++ [m.fromH] } else g2
  match iso with
  | none => g3
  | some i =>
    let firstCond := match g3.firstSeenAt with
      | none => true
      | some f => f = [] || strLt i f
    let g4 := if firstCond then { g3 with firstSeenAt := some i } else g3
    let lastCond := match g4.lastSeenAt with
      | none => true
      | some f => f = [] || strLt f i
    if lastCond then { g4 with lastSeenAt := some i } else g4

/-- The fresh entry placed in the map when a domain is first seen. -/
def newGroup (iso : Option Str) (m : EmailMeta) : DomainGroup :=
  { emailCount := 0, firstSeenAt := iso, lastSeenAt := iso,
    subject := m.subject, subjects := [], fromAddresses := [] }

/-- Membership in an insertion-ordered association list (JS `Map.has`). -/
def assocHas (l : List (Str × DomainGroup)) (k : Str) : Bool :=
  l.any (fun p => p.1 = k)

/-- In-place update of an insertion-ordered association list entry. -/
def assocUpdate (l : List (Str × DomainGroup)) (k : Str)
    (f : DomainGroup → DomainGroup) : List (Str × DomainGroup) :=
  l.map (fun p => if p.1 = k then (p.1, f p.2) else p)

/-- One step of the first pass of `summarizeByDomain`. -/
def insertMeta (parseDateIso : Str → Str) (groups : List (Str × DomainGroup))
    (m : EmailMeta) : List (Str × DomainGroup) :=
  match extractDomain (extractEmailAddress m.fromH) with
  | none => groups
  | some domain =>
    let iso := isoOf parseDateIso m
    if assocHas groups domain then assocUpdate groups domain (updateGroup iso m)
    else groups ++ [(domain, updateGroup iso m (newGroup iso m))]

/-- The first pass of `summarizeByDomain`: group metadata by canonical
domain in insertion order (JS `Map` preserves insertion order). -/
def groupByDomain (parseDateIso : Str → Str) (metas : List EmailMeta) :
    List (Str × DomainGroup) :=
  metas.foldl (insertMeta parseDateIso) []

/-- Regex `/support|help|contact|service|customer/i` literals. -/
def supportPats : List Str :=
  [strL ("support"), strL ("help"), strL ("contact"), strL ("service"),
   strL ("customer")]

/-- Anchored test for `data.?protection`: `data`, at most one non-newline
character, then `protection`. -/
def dataProtAt (t : Str) : Bool :=
  isPrefixB (strL ("data")) t &&
  (isPrefixB (strL ("protection")) (t.drop 4) ||
   (match t.drop 4 with
    | c :: r => !(c = '\n' || c = '\r') && isPrefixB (strL ("protection")) r
    | [] => false))

/-- Scanner applying an anchored predicate at every position. -/
def anyPos (p : Str → Bool) : Str → Bool
  | [] => p []
  | c :: r => p (c :: r) || anyPos p r

/-- Regex `/privacy|dpo|data.?protection/i` on a lower-cased address. -/
def privacyMatch (e : Str) : Bool :=
  substrOf (strL ("privacy")) e || substrOf (strL ("dpo")) e ||
  anyPos dataProtAt e

/-- Regex `/support|help|contact|service|customer/i` on a lower-cased
address. -/
def supportMatch (e : Str) : Bool := patAny supportPats e

/-- The observed sender addresses of a group, extracted and lower-cased
(`fromAddresses.map(a => extractEmailAddress(a)?.toLowerCase()).filter(e => !!e)`). -/
def observedEmails (fromAddresses : List Str) : List Str :=
  (fromAddresses.filterMap (fun a => (extractEmailAddress a).map lowerStr)).filter
    (fun e => e ≠ [])

/-- Function `extractContactEmails`: first observed sender address that looks
support-like, and first that looks privacy-like. -/
def extractContactEmails (fromAddresses : List Str) : Option Str × Option Str :=
  let emails := observedEmails fromAddresses
  (emails.find? supportMatch, emails.find? privacyMatch)

/-- Result row of the `services` select, and its error, as returned (not
thrown) by the store. -/
structure SvcErr where
  code : Str
deriving DecidableEq

/-- The store collaborators of `summarizeByDomain`: the `services` select by
domain and the `services` insert (whose payload - derived name, contact
emails, category, logo - does not feed back into the returned aggregates).
A `none` from `createSvc` models a failed insert. -/
structure SvcStore where
  fetchSvc : Str → Option Str × Option SvcErr
  createSvc : Str → Option Str

/-- The get-or-create branching of the second pass, exactly as written:
create when (error with code PGRST116) or no row; throw on create failure;
throw on other fetch errors (only reachable with a row AND an error). -/
def resolveService (st : SvcStore) (domain : Str) : Except Unit (Option Str) :=
  let r := st.fetchSvc domain
  let hasP : Bool := match r.2 with
    | some e => e.code = strL ("PGRST116")
    | none => false
  if hasP || r.1 = none then
    match st.createSvc domain with
    | none => Except.error ()
    | some id => Except.ok (some id)
  else
    match r.2 with
    | some _ => Except.error ()
    | none => Except.ok r.1

/-- The second pass of `summarizeByDomain`: resolve a service per domain
(with the per-sweep cache) and build the aggregate with contact emails and
confidence tier. -/
def summarizeSecond (st : SvcStore) :
    List (Str × DomainGroup) → List (Str × Str) → Except Unit (List DomainAggregate)
  | [], _cache => Except.ok []
  | (domain, data) :: rest, cache =>
    let step : Except Unit (Option Str × List (Str × Str)) :=
      match findPair cache domain with
      | some cachedId => Except.ok (some cachedId, cache)
      | none =>
        match resolveService st domain with
        | Except.error e => Except.error e
        | Except.ok sid =>
          let cache2 := match sid with
            | some id => cache ++ [(domain, id)]
            | none => cache
          Except.ok (sid, cache2)
    match step with
    | Except.error e => Except.error e
    | Except.ok (sid, cache2) =>
      let extracted := extractContactEmails data.fromAddresses
      let hit := extracted.1.isSome || extracted.2.isSome
      let supportEmail := if hit then extracted.1 else some (strL ("support@") ++ domain)
      let privacyEmail := if hit then extracted.2 else some (strL ("privacy@") ++ domain)
      let conf := if hit then Conf.high else Conf.low
      match summarizeSecond st rest cache2 with
      | Except.error e => Except.error e
      | Except.ok more =>
        Except.ok ({ domain := domain, emailCount := data.emailCount,
                     firstSeenAt := data.firstSeenAt, lastSeenAt := data.lastSeenAt,
                     serviceId := sid, subject := data.subject,
                     subjects := data.subjects, supportEmail := supportEmail,
                     privacyEmail := privacyEmail,
                     contactConfidence := conf } :: more)

/-- Function `summarizeByDomain`: group by canonical domain, then resolve
services and emit aggregates. -/
def summarizeByDomain (st : SvcStore) (parseDateIso : Str → Str)
    (metas : List EmailMeta) : Except Unit (List DomainAggregate) :=
  summarizeSecond st (groupByDomain parseDateIso metas) []

/-! ## Incremental-scan window (src/utils/cache.ts, getIncrementalScanDate) -/

/-- One `sweep_events` row, with its instants parsed to milliseconds since
the epoch (`new Date(s).getTime()`; string/ISO parsing abstracted). -/
structure SweepEvent where
  startedAt : Option Int
  completedAt : Option Int
  status : Str
deriving DecidableEq

/-- PostgREST `order("started_at", { ascending: false })` key comparison:
descending, nulls first (the Postgres default for DESC). -/
def keyGt : Option Int → Option Int → Bool
  | none, none => false
  | none, some _ => true
  | some _, none => false
  | some a, some b => decide (b < a)

/-- The query of `getIncrementalScanDate`: completed rows, ordered by
`started_at` descending, `limit(1).maybeSingle()`.  Ties are broken by
keeping the earlier row, matching a stable scan. -/
def mostRecentCompleted (events : List SweepEvent) : Option SweepEvent :=
  (events.filter (fun e => e.status = strL ("completed"))).foldl
    (fun acc e =>
      match acc with
      | none => some e
      | some a => if keyGt e.startedAt a.startedAt then some e else some a) none

/-- Function `getIncrementalScanDate`: the start instant of the most recent
completed sweep, if that sweep is no more than `maxHoursOld` hours old.
The JS float division `(now - scanDate) / 3600000 > maxHoursOld` is modelled
by the exact equivalent `now - scanDate > maxHoursOld * 3600000`. -/
def getIncrementalScanDate (events : List SweepEvent) (now : Int)
    (maxHoursOld : Int) : Option Int :=
  match mostRecentCompleted events with
  | none => none
  | some sweep =>
    match sweep.startedAt with
    | none => none
    | some t => if now - t > maxHoursOld * 3600000 then none else some t

/-! ## Gmail error classification (src/worker.ts and the fetch-metadata
module embedded in src/utils/encryption.ts; the two copies of
`isGmailAuthError` are identical) -/

/-- The structural error shape inspected by the classifiers: optional
`code`/`status` numbers, the payload `error.status` string, the payload
`errors[].reason` list, and the message. -/
structure GmailErr where
  code : Option Nat
  status : Option Nat
  errStatus : Option Str
  reasons : List Str
  msg : Str
deriving DecidableEq

/-- Function `isGmailAuthError`: 401 on `code ?? status`, payload status
`UNAUTHENTICATED`, an `authError` reason, or an invalid-credentials
message. -/
def isGmailAuthError (e : GmailErr) : Bool :=
  (match e.code with
   | some c => c = 401
   | none => e.status = some 401) ||
  e.errStatus = some (strL ("UNAUTHENTICATED")) ||
  e.reasons.any (fun r => r = strL ("authError")) ||
  substrOf (strL ("Invalid Credentials")) e.msg ||
  substrOf (strL ("invalid_grant")) e.msg

/-- The rate-limit test of `retryWithBackoff` (fetch-metadata module):
`code === 429 || status === 429 || error.status === "RESOURCE_EXHAUSTED" ||
(code === 403 && message.includes("Quota"))`. -/
def isRateLimitError (e : GmailErr) : Bool :=
  e.code = some 429 || e.status = some 429 ||
  e.errStatus = some (strL ("RESOURCE_EXHAUSTED")) ||
  (e.code = some 403 && substrOf (strL ("Quota")) e.msg)

/-! ## Token lifecycle wrapper (src/worker.ts,
ensureValidAccessToken / withTokenRefresh) -/

/-- A `gmail_accounts` row, with `token_expires_at` parsed to epoch seconds
(string parsing abstracted; `null` stays `none`). -/
structure GmailAcct where
  userId : Str
  gmailAddress : Str
  accessTokEnc : Str
  refreshTokEnc : Option Str
  tokenExpiresAtSec : Option Int
deriving DecidableEq

/-- The OAuth endpoint response. -/
structure RefreshedTok where
  accessToken : Str
  expiresIn : Int
deriving DecidableEq

/-- Observable events of one `withTokenRefresh` execution: invocation of
the wrapped operation with a token, a refresh-endpoint call, and the
`gmail_accounts` update persisting a freshly encrypted token (supabase
returns its error as a value, which this code never reads, so the persist
outcome is recorded but cannot alter control flow). -/
inductive TokEv
  | evOp (attempt : Nat) (tok : Str)
  | evRefresh (idx : Nat)
  | evPersist (idx : Nat) (tokEnc : Str) (ok : Bool)
deriving DecidableEq

/-- Error surfaced by the wrapper: the wrapped operation's error, or a
thrown token-refresh failure. -/
inductive RunErr
  | opErr (e : GmailErr)
  | refreshErr
deriving DecidableEq

/-- Environment of one `withTokenRefresh` execution: the credential row,
the clock, the outcome of each OAuth refresh call, the (ignored) outcome of
each persisting update, the wrapped operation per invocation, and the
vault's decrypt/encrypt (modelled abstractly here; their concrete
structure is verified separately with `encryptTokenM`/`decryptTokenM`). -/
structure TokEnv (α : Type) where
  acct : GmailAcct
  nowSec : Int
  refreshFn : Nat → Except Unit RefreshedTok
  persistOk : Nat → Bool
  op : Nat → Str → Except GmailErr α
  dec : Str → Str
  enc : Str → Str

/-- The truthy refresh token:
`gmailAccount.refresh_token_encrypted ? decryptToken(...) : null`. -/
def refreshTokOf (env : TokEnv α) : Option Str :=
  match env.acct.refreshTokEnc with
  | some r => if r ≠ [] then some (env.dec r) else none
  | none => none

/-- Function `ensureValidAccessToken`: decrypt the stored token; if the
stored expiry is truthy, in the past, and a refresh token exists, refresh
proactively and persist.  Returns the token to use, the events emitted, and
the number of refresh calls made. -/
def ensureValidAccessToken (env : TokEnv α) :
    Except Unit Str × List TokEv × Nat :=
  let accessToken := env.dec env.acct.accessTokEnc
  match env.acct.tokenExpiresAtSec, refreshTokOf env with
  | some expiry, some _ =>
    if expiry ≠ 0 ∧ expiry < env.nowSec then
      match env.refreshFn 0 with
      | Except.error _ => (Except.error (), [TokEv.evRefresh 0], 1)
      | Except.ok r =>
        (Except.ok r.accessToken,
         [TokEv.evRefresh 0,
          TokEv.evPersist 0 (env.enc r.accessToken) (env.persistOk 0)], 1)
    else (Except.ok accessToken, [], 0)
  | _, _ => (Except.ok accessToken, [], 0)

/-- Function `withTokenRefresh`: run the operation with a valid token; on an
auth error, refresh once, persist, and retry the whole operation. -/
def withTokenRefresh (env : TokEnv α) : Except RunErr α × List TokEv :=
  match ensureValidAccessToken env with
  | (Except.error _, evs, _) => (Except.error RunErr.refreshErr, evs)
  | (Except.ok accessToken, evs, rc) =>
    match env.op 0 accessToken with
    | Except.ok v => (Except.ok v, evs ++ [TokEv.evOp 0 accessToken])
    | Except.error e =>
      if ¬ isGmailAuthError e then
        (Except.error (RunErr.opErr e), evs ++ [TokEv.evOp 0 accessToken])
      else
        match refreshTokOf env with
        | none => (Except.error (RunErr.opErr e), evs ++ [TokEv.evOp 0 accessToken])
        | some _ =>
          match env.refreshFn rc with
          | Except.error _ =>
            (Except.error RunErr.refreshErr,
             evs ++ [TokEv.evOp 0 accessToken, TokEv.evRefresh rc])
          | Except.ok r =>
            let evs2 := evs ++ [TokEv.evOp 0 accessToken, TokEv.evRefresh rc,
                                TokEv.evPersist rc (env.enc r.accessToken)
                                  (env.persistOk rc)]
            match env.op 1 r.accessToken with
            | Except.ok v => (Except.ok v, evs2 ++ [TokEv.evOp 1 r.accessToken])
            | Except.error e2 =>
              (Except.error (RunErr.opErr e2), evs2 ++ [TokEv.evOp 1 r.accessToken])

/-! ## Concurrent metadata fetcher (fetch-metadata module embedded in
src/utils/encryption.ts: retryWithBackoff, getEmailMetadataBatch,
fetchMetadataForMessages) -/

/-- Base delay times two to the attempt number. -/
def backoffDelay (attempt : Nat) : Nat := 1000 * 2 ^ attempt

/-- The unreachable `throw lastErr ?? new Error("Max retries exceeded")`
fallback. -/
def maxRetriesErr : GmailErr :=
  { code := none, status := none, errStatus := none, reasons := [],
    msg := strL ("Max retries exceeded") }

/-- The retry loop of `retryWithBackoff`: `att` gives the outcome of each
attempt, `fuel` counts the remaining loop iterations (`fuel = 0` inside the
loop body corresponds to `attempt === maxRetries - 1`).  Returns the final
outcome and the list of backoff delays actually waited. -/
def retryGo (att : Nat → Except GmailErr α) :
    Nat → Nat → Except GmailErr α × List Nat
  | _, 0 => (Except.error maxRetriesErr, [])
  | attempt, fuel + 1 =>
    match att attempt with
    | Except.ok v => (Except.ok v, [])
    | Except.error e =>
      if isGmailAuthError e then (Except.error e, [])
      else if ¬ isRateLimitError e ∨ fuel = 0 then (Except.error e, [])
      else
        let r := retryGo att (attempt + 1) fuel
        (r.1, backoffDelay attempt :: r.2)

/-- Function `retryWithBackoff` with the default `maxRetries = 5`,
`baseDelay = 1000`. -/
def retryWithBackoff (att : Nat → Except GmailErr α) :
    Except GmailErr α × List Nat :=
  retryGo att 0 5

/-- The worker loop of `getEmailMetadataBatch` over one batch, modelled on
one cooperative schedule (the five workers share one cursor, so each id is
processed exactly once; which worker takes it does not affect the results
or the terminal signal).  `atts k` is the attempt script of the `k`-th id;
a non-auth failure records the id and continues, an auth failure rejects
the whole batch. -/
def batchGo (atts : Nat → Nat → Except GmailErr μ) :
    Nat → List Str → Except GmailErr (List μ × List Str)
  | _, [] => Except.ok ([], [])
  | k, id :: rest =>
    match (retryWithBackoff (atts k)).1 with
    | Except.ok m =>
      match batchGo atts (k + 1) rest with
      | Except.ok (ms, errs) => Except.ok (m :: ms, errs)
      | Except.error e => Except.error e
    | Except.error e =>
      if isGmailAuthError e then Except.error e
      else
        match batchGo atts (k + 1) rest with
        | Except.ok (ms, errs) => Except.ok (ms, id :: errs)
        | Except.error e2 => Except.error e2

/-- Function `getEmailMetadataBatch` starting at a given global id index. -/
def getEmailMetadataBatchAt (atts : Nat → Nat → Except GmailErr μ)
    (off : Nat) (ids : List Str) : Except GmailErr (List μ × List Str) :=
  batchGo atts off ids

/-- Batches of 200 ids (`BATCH_SIZE`). -/
def chunks200 : List Str → List (List Str)
  | [] => []
  | x :: xs => (x :: xs).take 200 :: chunks200 ((x :: xs).drop 200)
termination_by l => l.length
decreasing_by simp only [List.length_drop, List.length_cons]; omega

/-- The batch loop of `fetchMetadataForMessages`: an auth error from a batch
is rethrown, any other batch error is logged and the loop continues. -/
def fetchMetadataGo (atts : Nat → Nat → Except GmailErr μ) :
    Nat → List (List Str) → Except GmailErr (List μ)
  | _, [] => Except.ok []
  | off, chunk :: rest =>
    match getEmailMetadataBatchAt atts off chunk with
    | Except.ok (ms, _errs) =>
      match fetchMetadataGo atts (off + chunk.length) rest with
      | Except.ok more => Except.ok (ms ++ more)
      | Except.error e => Except.error e
    | Except.error e =>
      if isGmailAuthError e then Except.error e
      else fetchMetadataGo atts (off + chunk.length) rest

/-- Function `fetchMetadataForMessages` over the already-extracted id list
(the `messages.map(m => m.id).filter(Boolean)` projection): empty input
short-circuits, otherwise ids are processed in batches of 200. -/
def fetchMetadataForMessages (atts : Nat → Nat → Except GmailErr μ)
    (ids : List Str) : Except GmailErr (List μ) :=
  if ids = [] then Except.ok [] else fetchMetadataGo atts 0 (chunks200 ids)

/-! ## Sweep orchestrator (src/worker.ts, processSweep / saveSweepData) -/

/-- A `user_services` row as built by `saveSweepData`. -/
structure LinkRow where
  serviceId : Option Str
  emailCount : Nat
  firstSeenAt : Option Str
  lastSeenAt : Option Str
  confidence : Nat
deriving DecidableEq

/-- Durable-store writes and outbound notifications of one `processSweep`
run, in program order.  Per-batch progress updates of the fetch stage are
not modelled (they only write a percentage). -/
inductive Eff
  | statusProcessing
  | listCall (plan : Str) (since : Option Int)
  | fetchCall
  | deleteLinks
  | upsertLinks (rows : List LinkRow)
  | upsertBreaches (count : Nat)
  | metrics (accountsFound : Nat) (breachesFound : Nat) (isIncremental : Bool)
  | statusCompleted (servicesFound : Nat) (breachesFound : Nat)
  | setLastSweep
  | notifyCompleted (servicesFound : Nat) (breachesFound : Nat)
  | emailCompleted (totalAccounts : Nat) (breachesFound : Nat)
  | statusFailed
  | notifyFailed
  | emailFailed
deriving DecidableEq

/-- Environment of one `processSweep` run.  The Gmail stages run inside
`withTokenRefresh` (verified separately); here each wrapped stage is one
outcome function.  `upsertLinksErr` is the checked error of the
`user_services` upsert (the only store write in `saveSweepData` whose error
is checked and thrown). -/
structure SweepEnv where
  user : Option Str
  planVal : Option Str
  gmailAccount : Option GmailAcct
  gmailFetchErr : Bool
  events : List SweepEvent
  now : Int
  listFn : Str → Option Int → Except Unit (List Str)
  fetchFn : List Str → Except Unit (List EmailMeta)
  summarizeFn : List EmailMeta → Except Unit (List DomainAggregate)
  breachFn : Str → Except Unit (List Str)
  upsertLinksErr : Bool

/-- View of an enriched summary as the duck-typed `Summary` consumed by the
scoring helpers: the spread aggregate has `domain`, `subject`, `subjects`
and `emailCount`, and no `from` field. -/
def summaryOfAggregate (a : DomainAggregate) : Summary :=
  { domain := some a.domain, subject := some a.subject,
    subjects := some a.subjects, fromH := none,
    emailCount := some a.emailCount }

/-- The enrichment step: attach `calculateConfidenceScore` to each summary
(the `normalizedName`/`category` enrichment fields are also attached in the
source but flow into no persisted row or counter). -/
def enrich (l : List DomainAggregate) : List (DomainAggregate × Nat) :=
  l.map (fun a => (a, calculateConfidenceScore (summaryOfAggregate a)))

/-- The spam filter step over enriched summaries. -/
def filterSpam (l : List (DomainAggregate × Nat)) : List (DomainAggregate × Nat) :=
  l.filter (fun p => ¬ isLikelySpam (summaryOfAggregate p.1))

/-- Stable insertion for the descending in-place
`sort((a, b) => b.confidence - a.confidence)` (JS `sort` is stable): an
element is placed before the first strictly smaller confidence. -/
def insertByConf (x : DomainAggregate × Nat) :
    List (DomainAggregate × Nat) → List (DomainAggregate × Nat)
  | [] => [x]
  | y :: ys => if y.2 < x.2 then x :: y :: ys else y :: insertByConf x ys

/-- Stable sort by descending confidence. -/
def sortByConfDesc (l : List (DomainAggregate × Nat)) :
    List (DomainAggregate × Nat) :=
  l.foldl (fun acc x => insertByConf x acc) []

/-- The `user_services` row built from one enriched summary. -/
def mkLinkRow (p : DomainAggregate × Nat) : LinkRow :=
  { serviceId := p.1.serviceId, emailCount := p.1.emailCount,
    firstSeenAt := p.1.firstSeenAt, lastSeenAt := p.1.lastSeenAt,
    confidence := p.2 }

/-- Function `saveSweepData`: delete prior links on a full sweep, upsert the
new links (throwing on a checked upsert error), upsert breaches (error not
checked).  Returns the effects performed and whether it completed. -/
def saveSweepDataEff (isIncremental : Bool) (rows : List LinkRow)
    (breachCount : Nat) (upsertErr : Bool) : List Eff × Bool :=
  let t1 := if ¬ isIncremental then [Eff.deleteLinks] else []
  if rows ≠ [] then
    if upsertErr then (t1, false)
    else (t1 ++ [Eff.upsertLinks rows] ++
          (if breachCount ≠ 0 then [Eff.upsertBreaches breachCount] else []), true)
  else (t1 ++ (if breachCount ≠ 0 then [Eff.upsertBreaches breachCount] else []), true)

/-- The catch-block tail of `processSweep`: mark failed, notify, email. -/
def failTail : List Eff := [Eff.statusFailed, Eff.notifyFailed, Eff.emailFailed]

/-- The `(subscriptionData?.current_plan || "free")` coercion. -/
def planOf (planVal : Option Str) : Str :=
  match planVal with
  | some p => if p = [] then strL ("free") else p
  | none => strL ("free")

/-- Function `processSweep` as its trace of store writes and notifications:
the user-not-found guard runs before the try block and only notifies; inside
the try block any stage failure is caught once and appends the failure
tail (writes already performed are kept). -/
def runProcessSweep (env : SweepEnv) : List Eff :=
  match env.user with
  | none => [Eff.notifyFailed]
  | some _userEmail =>
    let t0 := [Eff.statusProcessing]
    let currentPlan := planOf env.planVal
    match env.gmailAccount with
    | none => t0 ++ failTail
    | some acct =>
      if env.gmailFetchErr then t0 ++ failTail
      else
        let lastScan := getIncrementalScanDate env.events env.now 24
        let isIncremental := lastScan.isSome
        let t1 := t0 ++ [Eff.listCall currentPlan lastScan]
        match env.listFn currentPlan lastScan with
        | Except.error _ => t1 ++ failTail
        | Except.ok msgs =>
          let t2 := t1 ++ [Eff.fetchCall]
          match env.fetchFn msgs with
          | Except.error _ => t2 ++ failTail
          | Except.ok metas =>
            match env.summarizeFn metas with
            | Except.error _ => t2 ++ failTail
            | Except.ok domainSummaries =>
              let enriched := enrich domainSummaries
              let filtered := filterSpam enriched
              let sorted := sortByConfDesc filtered
              match env.breachFn acct.gmailAddress with
              | Except.error _ => t2 ++ failTail
              | Except.ok breaches =>
                let isFreePlan := currentPlan ≠ strL ("pro")
                let totalAccountsFound := filtered.length
                let accountsToSave := if isFreePlan then sorted.take 50 else sorted
                let save := saveSweepDataEff isIncremental
                  (accountsToSave.map mkLinkRow) breaches.length env.upsertLinksErr
                if save.2 then
                  t2 ++ save.1 ++
                  [Eff.metrics totalAccountsFound breaches.length isIncremental,
                   Eff.statusCompleted totalAccountsFound breaches.length,
                   Eff.setLastSweep,
                   Eff.notifyCompleted totalAccountsFound breaches.length,
                   Eff.emailCompleted totalAccountsFound breaches.length]
                else t2 ++ save.1 ++ failTail

/-! ## Token vault (src/utils/encryption.ts, encryptToken / decryptToken) -/

/-- The standard base64 alphabet. -/
def b64Alphabet : Str :=
  strL ("ABCDEFGHIJKLMNOPQRSTUVWXYZabcdefghijklmnopqrstuvwxyz0123456789+/")

/-- Character of a six-bit group. -/
def b64Char (n : Nat) : Char := b64Alphabet.getD n 'A'

/-- Index scan of the alphabet. -/
def b64IdxGo : Str → Nat → Char → Option Nat
  | [], _, _ => none
  | a :: rest, i, c => if c = a then some i else b64IdxGo rest (i + 1) c

/-- Value of a base64 character. -/
def b64Idx (c : Char) : Option Nat := b64IdxGo b64Alphabet 0 c

/-- Base64 encoding of a byte list (`Buffer.prototype.toString("base64")`),
with `=` padding. -/
def encodeB64 : List Nat → Str
  | [] => []
  | [b1] => [b64Char (b1 / 4), b64Char (b1 % 4 * 16), '=', '=']
  | [b1, b2] =>
    [b64Char (b1 / 4), b64Char (b1 % 4 * 16 + b2 / 16), b64Char (b2 % 16 * 4), '=']
  | b1 :: b2 :: b3 :: rest =>
    b64Char (b1 / 4) :: b64Char (b1 % 4 * 16 + b2 / 16) ::
    b64Char (b2 % 16 * 4 + b3 / 64) :: b64Char (b3 % 64) :: encodeB64 rest

/-- Base64 decoding (`Buffer.from(s, "base64")`), written as the strict
inverse; it agrees with Node's lenient decoder on every valid base64
string, which is the class the round-trip theorem quantifies over. -/
def decodeB64 : Str → Option (List Nat)
  | [] => some []
  | c1 :: c2 :: c3 :: c4 :: rest =>
    (match b64Idx c1, b64Idx c2 with
     | some v1, some v2 =>
       if c3 = '=' then
         if c4 = '=' ∧ rest = [] then some [v1 * 4 + v2 / 16] else none
       else
         match b64Idx c3 with
         | some v3 =>
           if c4 = '=' then
             if rest = [] then some [v1 * 4 + v2 / 16, v2 % 16 * 16 + v3 / 4]
             else none
           else
             match b64Idx c4 with
             | some v4 =>
               match decodeB64 rest with
               | some bs =>
                 some ((v1 * 4 + v2 / 16) :: (v2 % 16 * 16 + v3 / 4) ::
                       (v3 % 4 * 64 + v4) :: bs)
               | none => none
             | none => none
         | none => none
     | _, _ => none)
  | _ => none

/-- CTR-mode keystream application: byte `i` of the plaintext is XORed with
keystream byte `i`.  AES-256-GCM encrypts and decrypts with the identical
keystream derived from key and IV, so the block cipher itself enters only
through the abstract keystream function. -/
def xorStream (ks : Nat → Nat) : Nat → List Nat → List Nat
  | _, [] => []
  | i, b :: bs => (b ^^^ ks i) :: xorStream ks (i + 1) bs

/-- Function `encryptToken`, parameterized by the cipher primitives of
`node:crypto`: `ks key iv i` is keystream byte `i`, `tagFn key iv ct` the
GCM auth tag, `utf8Enc` the `utf8` encoding of `cipher.update`.  The random
IV of one call is the explicit `iv` argument.  Result format is
`iv.ciphertext.tag`, all base64; a key that does not decode to 32 bytes
throws (`none`). -/
def encryptTokenM (ks : List Nat → List Nat → Nat → Nat)
    (tagFn : List Nat → List Nat → List Nat → List Nat)
    (utf8Enc : Str → List Nat) (plain : Str) (iv : List Nat)
    (keyB64 : Str) : Option Str :=
  match decodeB64 keyB64 with
  | none => none
  | some key =>
    if key.length ≠ 32 then none
    else
      let ct := xorStream (ks key iv) 0 (utf8Enc plain)
      let tag := tagFn key iv ct
      some (encodeB64 iv ++ '.' :: encodeB64 ct ++ '.' :: encodeB64 tag)

/-- Function `decryptToken`: split `iv.ciphertext.tag`, require exactly three
parts, check the key length, verify the GCM tag (`decipher.final`), and
XOR the ciphertext with the same keystream. -/
def decryptTokenM (ks : List Nat → List Nat → Nat → Nat)
    (tagFn : List Nat → List Nat → List Nat → List Nat)
    (utf8Dec : List Nat → Str) (enc : Str) (keyB64 : Str) : Option Str :=
  match splitCh '.' enc with
  | [ivB64, ctB64, tagB64] =>
    (match decodeB64 keyB64, decodeB64 ivB64, decodeB64 ctB64, decodeB64 tagB64 with
     | some key, some iv, some ct, some tag =>
       if key.length ≠ 32 then none
       else if tagFn key iv ct ≠ tag then none
       else some (utf8Dec (xorStream (ks key iv) 0 ct))
     | _, _, _, _ => none)
  | _ => none

/-! ## Auxiliary predicates used by theorem statements -/

/-- A canonical domain of the shape noise-prefix + multi-part public suffix
(for example `support.co.uk`), the one base-domain shape a second
canonicalization pass shortens further. -/
def prefMultipartB (d : Str) : Bool :=
  ignoredLabels.any (fun p => multipartSuffixes.any (fun m => d = p ++ '.' :: m))

/-- Every character of the string is fixed by lower-casing. -/
def LowerFixed (s : Str) : Prop := ∀ c ∈ s, lowerChar c = c

/-- The six subject-signal regex groups of `calculateConfidenceScore`. -/
def subjectPatGroups : List (List Str) :=
  [onboardingPats, verifyPats, securityPats, transactPats, subscriptionPats,
   mgmtPats]

/-- Sorted by non-increasing confidence. -/
def SortedDesc (l : List (DomainAggregate × Nat)) : Prop :=
  l.Pairwise (fun a b => b.2 ≤ a.2)

/-! ## Concrete instances used in witnesses and counterexamples -/

/-- A pure rate-limit error (HTTP 429). -/
def c4Err : GmailErr :=
  { code := some 429, status := none, errStatus := none, reasons := [], msg := [] }

/-- An attempt script that always rate-limits. -/
def c4Att : Nat → Except GmailErr Nat := fun _ => Except.error c4Err

/-- A 401 auth error. -/
def c7AuthErr : GmailErr :=
  { code := some 401, status := none, errStatus := none, reasons := [], msg := [] }

/-- Batch attempt scripts: id 0 rate-limits once then succeeds, id 1 always
fails with an auth error, later ids succeed. -/
def c7Atts : Nat → Nat → Except GmailErr Nat := fun k i =>
  if k = 0 then (if i = 0 then Except.error c4Err else Except.ok 5)
  else if k = 1 then Except.error c7AuthErr
  else Except.ok 5

/-- One completed sweep that started 25 hours ago and finished 1 hour ago. -/
def c1Events : List SweepEvent :=
  [{ startedAt := some 0, completedAt := some 86400000, status := strL ("completed") }]

/-- The clock 25 hours after the sweep start. -/
def c1Now : Int := 90000000

/-- One completed sweep that started 23 hours ago. -/
def c1WEvents : List SweepEvent :=
  [{ startedAt := some 3600000, completedAt := some 7200000,
     status := strL ("completed") }]

/-- One completed sweep whose start and finish both lie far in the past. -/
def c1OldEvents : List SweepEvent :=
  [{ startedAt := some 0, completedAt := some 3600000, status := strL ("completed") }]

/-- A fully successful orchestrator environment over `c1WEvents`. -/
def c1Env : SweepEnv :=
  { user := some (strL ("u@x.com")), planVal := some (strL ("free")),
    gmailAccount := some { userId := strL ("u1"), gmailAddress := strL ("g@x.com"),
                           accessTokEnc := strL ("enc"), refreshTokEnc := none,
                           tokenExpiresAtSec := none },
    gmailFetchErr := false, events := c1WEvents, now := 86400000,
    listFn := fun _ _ => Except.ok [], fetchFn := fun _ => Except.ok [],
    summarizeFn := fun _ => Except.ok [], breachFn := fun _ => Except.ok [],
    upsertLinksErr := false }

/-- Token-wrapper environment: reactive auth failure on the first call,
successful refresh, FAILED persist, successful retry. -/
def c2Env : TokEnv Nat :=
  { acct := { userId := strL ("u1"), gmailAddress := strL ("g@x.com"),
              accessTokEnc := strL ("enc1"), refreshTokEnc := some (strL ("r1")),
              tokenExpiresAtSec := none },
    nowSec := 0,
    refreshFn := fun _ => Except.ok { accessToken := strL ("tok2"), expiresIn := 3600 },
    persistOk := fun _ => false,
    op := fun attempt _tok => if attempt = 0 then Except.error c7AuthErr else Except.ok 7,
    dec := fun s => s, enc := fun s => s }

/-- The same environment with an already-expired stored token (proactive
refresh path). -/
def c2EnvPro : TokEnv Nat :=
  { c2Env with
    acct := { userId := strL ("u1"), gmailAddress := strL ("g@x.com"),
              accessTokEnc := strL ("enc1"), refreshTokEnc := some (strL ("r1")),
              tokenExpiresAtSec := some 10 },
    nowSec := 100 }

/-- The orchestrator environment whose user lookup fails. -/
def c3Env : SweepEnv := { c1Env with user := none }

/-- A benign aggregate (not spam-filtered) used to build large candidate
lists. -/
def c8Agg : DomainAggregate :=
  { domain := strL ("svc.example"), emailCount := 1, firstSeenAt := none,
    lastSeenAt := none, serviceId := some (strL ("id1")),
    subject := strL ("hello"), subjects := [strL ("hello")],
    supportEmail := none, privacyEmail := none, contactConfidence := Conf.low }

/-- A free-plan environment whose aggregation stage yields 70 candidates. -/
def c8Env : SweepEnv :=
  { c1Env with summarizeFn := fun _ => Except.ok (List.replicate 70 c8Agg) }

/-- An aggregate whose subjects spell `account created` across the join
boundary. -/
def c6AggA : DomainAggregate :=
  { domain := [], emailCount := 2, firstSeenAt := none, lastSeenAt := none,
    serviceId := none, subject := [],
    subjects := [strL ("account"), strL ("created by")],
    supportEmail := none, privacyEmail := none, contactConfidence := Conf.low }

/-- The same aggregate with the two subjects swapped. -/
def c6AggB : DomainAggregate :=
  { c6AggA with subjects := [strL ("created by"), strL ("account")] }

/-- An aggregate whose subjects contain no cross-boundary phrases. -/
def c6WAgg : DomainAggregate :=
  { c6AggA with subjects := [strL ("welcome"), strL ("receipt")] }

/-- Boolean success test for `Except`. -/
def isOkB : Except ε α → Bool
  | Except.ok _ => true
  | Except.error _ => false

/-- A store whose service select always finds a row. -/
def c10St : SvcStore :=
  { fetchSvc := fun _ => (some (strL ("sid")), none),
    createSvc := fun _ => some (strL ("sid2")) }

/-- A date parser stub (timestamps do not matter for contact confidence). -/
def c10Parse : Str → Str := fun _ => []

/-- Two metadata records: one support-like sender, one plain sender. -/
def c10Metas : List EmailMeta :=
  [{ fromH := strL ("Shop Support <support@shop.example>"), subject := strL ("hi"),
     date := [], internalDate := none },
   { fromH := strL ("News <news@other.example>"), subject := strL ("yo"),
     date := [], internalDate := none }]

/-! ## General lemmas -/


theorem delays_shift (a j : Nat) :
    backoffDelay a :: (List.range j).map (fun i => backoffDelay (a + 1 + i)) =
    (List.range (j + 1)).map (fun i => backoffDelay (a + i)) := by
  rw [List.range_succ_eq_map, List.map_cons, List.map_map]
  refine congrArg₂ List.cons ?_ ?_
  · exact congrArg backoffDelay (by omega)
  · refine List.map_congr_left (fun i _ => ?_)
    simp only [Function.comp_apply]
    exact congrArg backoffDelay (by omega)

theorem retryGo_stops {α : Type} (att : Nat → Except GmailErr α) :
    ∀ j a fuel, j < fuel →
    (∀ i, i < j → ∃ e2, att (a + i) = Except.error e2 ∧ isRateLimitError e2 = true ∧
      isGmailAuthError e2 = false) →
    ∀ e, att (a + j) = Except.error e →
    (isGmailAuthError e = true ∨ isRateLimitError e = false) →
    retryGo att a fuel = (Except.error e, (List.range j).map (fun i => backoffDelay (a + i))) := by
  intro j
  induction j with
  | zero =>
    intro a fuel hf _hpre e hj hstop
    match fuel, hf with
    | f + 1, _ =>
      rw [Nat.add_zero] at hj
      rcases hstop with hauth | hrl
      · simp [retryGo, hj, hauth]
      · simp [retryGo, hj, hrl]
  | succ j ih =>
    intro a fuel hf hpre e hj hstop
    match fuel, hf with
    | f + 1, _ =>
      have hjf : j < f := by omega
      obtain ⟨e2, h0, hrl0, ha0⟩ := hpre 0 (by omega)
      rw [Nat.add_zero] at h0
      have hrec := ih (a + 1) f hjf
        (fun i hi => by
          have := hpre (i + 1) (by omega)
          rwa [show a + (i + 1) = a + 1 + i by omega] at this)
        e (by rwa [show a + 1 + j = a + (j + 1) by omega]) hstop
      have hfne : ¬ (¬ isRateLimitError e2 = true ∨ f = 0) := by
        simp [hrl0]; omega
      simp only [retryGo, h0, ha0]
      rw [if_neg (by simp [ha0]), if_neg hfne]
      simp only [hrec]
      rw [delays_shift]

theorem retryGo_congr {α : Type} (att att2 : Nat → Except GmailErr α) :
    ∀ fuel a, (∀ i, a ≤ i → i < a + fuel → att2 i = att i) →
    retryGo att2 a fuel = retryGo att a fuel := by
  intro fuel
  induction fuel with
  | zero => intro a _; rfl
  | succ f ih =>
    intro a hag
    have h0 : att2 a = att a := hag a (Nat.le_refl a) (by omega)
    cases hval : att a with
    | ok v => simp [retryGo, h0, hval]
    | error e =>
      simp only [retryGo, h0, hval]
      by_cases hauth : isGmailAuthError e = true
      · rw [if_pos hauth, if_pos hauth]
      · by_cases hstop : ¬ isRateLimitError e = true ∨ f = 0
        · rw [if_neg hauth, if_neg hauth, if_pos hstop, if_pos hstop]
        · have hrec := ih (a + 1) (fun i hi1 hi2 => hag i (by omega) (by omega))
          rw [if_neg hauth, if_neg hauth, if_neg hstop, if_neg hstop, hrec]

theorem retryGo_exhaust {α : Type} (att : Nat → Except GmailErr α) :
    ∀ fuel a, 0 < fuel →
    (∀ i, i < fuel → ∃ e, att (a + i) = Except.error e ∧ isRateLimitError e = true ∧
      isGmailAuthError e = false) →
    ∃ elast, att (a + (fuel - 1)) = Except.error elast ∧
      retryGo att a fuel =
        (Except.error elast, (List.range (fuel - 1)).map (fun i => backoffDelay (a + i))) := by
  intro fuel
  induction fuel with
  | zero => intro a h; omega
  | succ f ih =>
    intro a _ hall
    obtain ⟨e0, h0, hrl0, ha0⟩ := hall 0 (by omega)
    rw [Nat.add_zero] at h0
    cases Nat.eq_zero_or_pos f with
    | inl hf0 =>
      subst hf0
      refine ⟨e0, by simpa using h0, ?_⟩
      simp [retryGo, h0, ha0]
    | inr hfpos =>
      obtain ⟨elast, hlast, hrec⟩ := ih (a + 1) hfpos
        (fun i hi => by
          have := hall (i + 1) (by omega)
          rwa [show a + (i + 1) = a + 1 + i by omega] at this)
      refine ⟨elast, by rwa [show a + (f + 1 - 1) = a + 1 + (f - 1) by omega], ?_⟩
      have hfne : ¬ (¬ isRateLimitError e0 = true ∨ f = 0) := by
        simp [hrl0]; omega
      simp only [retryGo, h0, ha0]
      rw [if_neg (by simp [ha0]), if_neg hfne]
      simp only [hrec]
      rw [show f + 1 - 1 = (f - 1) + 1 by omega, delays_shift]

/-- C4: for a single-message metadata request whose attempts all fail with
rate-limit signals, the retry wrapper waits 1000ms, 2000ms, 4000ms, 8000ms
before the retries following the 1st through 4th failed attempts, a 5th
consecutive failure propagates that error with no 6th attempt (the result
does not depend on any attempt beyond the first five), and only rate-limit
signals trigger retries (a non-rate-limit failure propagates immediately
with no further delay). -/
theorem c4_rate_limit_backoff {α : Type} (att : Nat → Except GmailErr α) :
    ((∀ i, i < 5 → ∃ e, att i = Except.error e ∧ isRateLimitError e = true ∧
        isGmailAuthError e = false) →
      (retryWithBackoff att).2 = [1000, 2000, 4000, 8000] ∧
      (retryWithBackoff att).1 = att 4) ∧
    (∀ att2 : Nat → Except GmailErr α, (∀ i, i < 5 → att2 i = att i) →
      retryWithBackoff att2 = retryWithBackoff att) ∧
    (∀ j e, j < 5 →
      (∀ i, i < j → ∃ e2, att i = Except.error e2 ∧ isRateLimitError e2 = true ∧
        isGmailAuthError e2 = false) →
      att j = Except.error e → isRateLimitError e = false →
      (retryWithBackoff att).1 = Except.error e ∧
      (retryWithBackoff att).2 = (List.range j).map backoffDelay) := by
  refine ⟨?_, ?_, ?_⟩
  · intro hall
    obtain ⟨elast, hlast, hrun⟩ := retryGo_exhaust att 5 0 (by omega)
      (fun i hi => by simpa using hall i hi)
    rw [show (0 : Nat) + (5 - 1) = 4 by omega] at hlast
    have h2 : (retryWithBackoff att).2 =
        (List.range (5 - 1)).map (fun i => backoffDelay (0 + i)) := by
      unfold retryWithBackoff
      rw [hrun]
    have h1 : (retryWithBackoff att).1 = Except.error elast := by
      unfold retryWithBackoff
      rw [hrun]
    refine ⟨h2.trans (by decide), h1.trans hlast.symm⟩
  · intro att2 hag
    unfold retryWithBackoff
    exact retryGo_congr att att2 5 0 (fun i _ hi2 => hag i (by omega))
  · intro j e hj hpre hje hrl
    have hrun := retryGo_stops att j 0 5 hj
      (fun i hi => by simpa using hpre i hi)
      e (by simpa using hje) (Or.inr hrl)
    have h1 : (retryWithBackoff att).1 = Except.error e := by
      unfold retryWithBackoff
      rw [hrun]
    have h2 : (retryWithBackoff att).2 =
        (List.range j).map (fun i => backoffDelay (0 + i)) := by
      unfold retryWithBackoff
      rw [hrun]
    refine ⟨h1, h2.trans ?_⟩
    apply List.map_congr_left
    intro i _
    rw [Nat.zero_add]

/-- Witness for C4 at the always-429 attempt script. -/
theorem c4_rate_limit_backoff_witness :
    (retryWithBackoff c4Att).2 = [1000, 2000, 4000, 8000] ∧
    (retryWithBackoff c4Att).1 = c4Att 4 :=
  (c4_rate_limit_backoff c4Att).1 (fun _ _ => ⟨c4Err, rfl, by decide, by decide⟩)

theorem batchGo_auth {μ : Type} (atts : Nat → Nat → Except GmailErr μ) (e : GmailErr)
    (hauth : isGmailAuthError e = true) :
    ∀ ids off k, k < ids.length →
    (∀ i, i < k → ∀ e2, (retryWithBackoff (atts (off + i))).1 = Except.error e2 →
      isGmailAuthError e2 = false) →
    (retryWithBackoff (atts (off + k))).1 = Except.error e →
    batchGo atts off ids = Except.error e := by
  intro ids
  induction ids with
  | nil => intro off k hk; simp at hk
  | cons id rest ih =>
    intro off k hk hprev hres
    cases k with
    | zero =>
      rw [Nat.add_zero] at hres
      simp [batchGo, hres, hauth]
    | succ k =>
      have hrec := ih (off + 1) k (by simpa using hk)
        (fun i hi e2 he => hprev (i + 1) (by omega)
          e2 (by rwa [show off + (i + 1) = off + 1 + i by omega]))
        (by rwa [show off + 1 + k = off + (k + 1) by omega])
      cases hval : (retryWithBackoff (atts off)).1 with
      | ok m => simp [batchGo, hval, hrec]
      | error e2 =>
        have hna : isGmailAuthError e2 = false := by
          have := hprev 0 (by omega) e2
          rw [Nat.add_zero] at this
          exact this hval
        simp [batchGo, hval, hna, hrec]

theorem batchGo_ok {μ : Type} (atts : Nat → Nat → Except GmailErr μ) :
    ∀ ids off,
    (∀ i, i < ids.length → ∀ e2, (retryWithBackoff (atts (off + i))).1 = Except.error e2 →
      isGmailAuthError e2 = false) →
    ∃ r, batchGo atts off ids = Except.ok r := by
  intro ids
  induction ids with
  | nil => intro off _; exact ⟨([], []), rfl⟩
  | cons id rest ih =>
    intro off hprev
    obtain ⟨r, hr⟩ := ih (off + 1)
      (fun i hi e2 he => hprev (i + 1) (by simpa using hi)
        e2 (by rwa [show off + (i + 1) = off + 1 + i by omega]))
    cases hval : (retryWithBackoff (atts off)).1 with
    | ok m => exact ⟨(m :: r.1, r.2), by simp [batchGo, hval, hr]⟩
    | error e2 =>
      have hna : isGmailAuthError e2 = false := by
        have := hprev 0 (by simp) e2
        rw [Nat.add_zero] at this
        exact this hval
      exact ⟨(r.1, id :: r.2), by simp [batchGo, hval, hna, hr]⟩

theorem fetchGo_auth {μ : Type} (atts : Nat → Nat → Except GmailErr μ) (e : GmailErr)
    (hauth : isGmailAuthError e = true) :
    ∀ n ids off k, ids.length ≤ n → k < ids.length →
    (∀ i, i < k → ∀ e2, (retryWithBackoff (atts (off + i))).1 = Except.error e2 →
      isGmailAuthError e2 = false) →
    (retryWithBackoff (atts (off + k))).1 = Except.error e →
    fetchMetadataGo atts off (chunks200 ids) = Except.error e := by
  intro n
  induction n with
  | zero => intro ids off k hn hk; omega
  | succ n ih =>
    intro ids off k hn hk hprev hres
    cases ids with
    | nil => simp at hk
    | cons x xs =>
      rw [show chunks200 (x :: xs) = (x :: xs).take 200 :: chunks200 ((x :: xs).drop 200)
           from by rw [chunks200]]
      by_cases hkin : k < ((x :: xs).take 200).length
      · have hbatch := batchGo_auth atts e hauth ((x :: xs).take 200) off k hkin hprev hres
        simp only [fetchMetadataGo, getEmailMetadataBatchAt]
        rw [hbatch]
        simp [hauth]
      · rw [List.length_take] at hkin
        have hlen : ((x :: xs).take 200).length = 200 := by
          rw [List.length_take]
          omega
        obtain ⟨r, hr⟩ := batchGo_ok atts ((x :: xs).take 200) off
          (fun i hi e2 he => hprev i (by rw [List.length_take] at hi; omega) e2 he)
        have hrec := ih ((x :: xs).drop 200) (off + 200) (k - 200)
          (by simp only [List.length_drop]; omega)
          (by simp only [List.length_drop]; omega)
          (fun i hi e2 he => hprev (200 + i) (by omega)
            e2 (by rwa [show off + (200 + i) = off + 200 + i by omega]))
          (by rwa [show off + 200 + (k - 200) = off + k by omega])
        simp only [fetchMetadataGo, getEmailMetadataBatchAt]
        rw [hr, hlen]
        obtain ⟨ms, errs⟩ := r
        rw [hrec]

/-- C7: if a single message request inside a batch fetch fails with an
AuthError (after the possible rate-limit retries of earlier attempts), the
error is raised immediately: no further delay is waited, the retry result
depends only on the attempts up to the auth failure, and the error
propagates out of the whole `fetchMetadataForMessages` call as the terminal
signal (earlier requests may fail non-fatally without disturbing this). -/
theorem c7_auth_aborts_batch {μ : Type} (atts : Nat → Nat → Except GmailErr μ)
    (ids : List Str) (k j : Nat) (e : GmailErr)
    (hk : k < ids.length)
    (hjs : j < 5)
    (hpre : ∀ i, i < j → ∃ e2, atts k i = Except.error e2 ∧ isRateLimitError e2 = true ∧
      isGmailAuthError e2 = false)
    (hej : atts k j = Except.error e)
    (hauth : isGmailAuthError e = true)
    (hprev : ∀ i, i < k → ∀ e2, (retryWithBackoff (atts i)).1 = Except.error e2 →
      isGmailAuthError e2 = false) :
    (retryWithBackoff (atts k)).1 = Except.error e ∧
    (retryWithBackoff (atts k)).2 = (List.range j).map backoffDelay ∧
    (∀ att2 : Nat → Except GmailErr μ, (∀ i, i ≤ j → att2 i = atts k i) →
      retryWithBackoff att2 = retryWithBackoff (atts k)) ∧
    fetchMetadataForMessages atts ids = Except.error e := by
  have hrun := retryGo_stops (atts k) j 0 5 hjs (by simpa using hpre) e
    (by simpa using hej) (Or.inl hauth)
  have h1 : (retryWithBackoff (atts k)).1 = Except.error e := by
    unfold retryWithBackoff; rw [hrun]
  have h2 : (retryWithBackoff (atts k)).2 = (List.range j).map backoffDelay := by
    unfold retryWithBackoff; rw [hrun]
    exact List.map_congr_left (fun i _ => by rw [Nat.zero_add])
  refine ⟨h1, h2, ?_, ?_⟩
  · intro att2 hag
    have hrun2 := retryGo_stops att2 j 0 5 hjs
      (fun i hi => by
        obtain ⟨e2, ha, hb, hc⟩ := hpre i hi
        exact ⟨e2, by simpa [hag i (by omega)] using ha, hb, hc⟩)
      e (by simpa [hag j (Nat.le_refl j)] using hej) (Or.inl hauth)
    unfold retryWithBackoff
    rw [hrun, hrun2]
  · have hne : ids ≠ [] := by
      intro hnil
      rw [hnil] at hk
      simp at hk
    unfold fetchMetadataForMessages
    rw [if_neg hne]
    exact fetchGo_auth atts e hauth ids.length ids 0 k (Nat.le_refl _) hk
      (fun i hi e2 he => hprev i hi e2 (by simpa using he))
      (by simpa using h1)

/-- Witness for C7: three ids, the second hits an auth error, the first
recovers from one rate-limit. -/
theorem c7_auth_aborts_batch_witness :
    (retryWithBackoff (c7Atts 1)).1 = Except.error c7AuthErr ∧
    fetchMetadataForMessages c7Atts [strL ("a"), strL ("b"), strL ("c")] =
      Except.error c7AuthErr := by
  have h := c7_auth_aborts_batch c7Atts [strL ("a"), strL ("b"), strL ("c")] 1 0 c7AuthErr
    (by decide) (by decide)
    (fun i hi => absurd hi (Nat.not_lt_zero i))
    (by decide) (by decide)
    (fun i hi e2 he => by
      have hi0 : i = 0 := by omega
      subst hi0
      have hok : (retryWithBackoff (c7Atts 0)).1 = Except.ok 5 := by decide
      rw [hok] at he
      exact absurd he (by simp))
  exact ⟨h.1, h.2.2.2⟩

theorem runProcessSweep_take2 (env : SweepEnv) (u : Str) (acct : GmailAcct)
    (hu : env.user = some u) (hacct : env.gmailAccount = some acct)
    (herr : env.gmailFetchErr = false) :
    (runProcessSweep env).take 2 =
      [Eff.statusProcessing,
       Eff.listCall (planOf env.planVal)
         (getIncrementalScanDate env.events env.now 24)] := by
  simp only [runProcessSweep, hu, hacct, herr]
  repeat' split
  all_goals simp_all

theorem runProcessSweep_prefix (env : SweepEnv) (u : Str) (acct : GmailAcct)
    (hu : env.user = some u) (hacct : env.gmailAccount = some acct)
    (herr : env.gmailFetchErr = false) :
    ∃ rest, runProcessSweep env =
      Eff.statusProcessing :: Eff.listCall (planOf env.planVal)
        (getIncrementalScanDate env.events env.now 24) :: rest := by
  refine ⟨(runProcessSweep env).drop 2, ?_⟩
  conv_lhs => rw [← List.take_append_drop 2 (runProcessSweep env)]
  rw [runProcessSweep_take2 env u acct hu hacct herr]
  rfl

/-- C1 counterexample: at `c1Events`/`c1Now` the most recent completed sweep
finished one hour ago - well within the last 24 hours - yet the orchestrator
performs a full lookback scan (no since-instant), because the code keys the
freshness window on the sweep's start instant, which is 25 hours old. -/
theorem c1_counterexample :
    (∃ ev, mostRecentCompleted c1Events = some ev ∧
      ev.completedAt = some 86400000 ∧ c1Now - 86400000 ≤ 24 * 3600000) ∧
    getIncrementalScanDate c1Events c1Now 24 = none := by
  constructor
  · exact ⟨{ startedAt := some 0, completedAt := some 86400000,
             status := strL ("completed") }, by decide, rfl, by decide⟩
  · decide

/-- C1 (amended): the orchestrator performs an incremental scan iff the most
recent completed sweep STARTED within the last 24 hours, and then the
since-instant passed to the lister is exactly that start instant; since a
sweep finishes no earlier than it starts, a most recent completed sweep that
finished 25 hours ago still forces a full lookback scan. -/
theorem c1_incremental_by_start (events : List SweepEvent) (now : Int) :
    (∀ d, getIncrementalScanDate events now 24 = some d ↔
      ∃ ev, mostRecentCompleted events = some ev ∧ ev.startedAt = some d ∧
        now - d ≤ 24 * 3600000) ∧
    (∀ ev s c, mostRecentCompleted events = some ev → ev.startedAt = some s →
      ev.completedAt = some c → s ≤ c → 25 * 3600000 ≤ now - c →
      getIncrementalScanDate events now 24 = none) ∧
    (∀ env : SweepEnv, env.events = events → env.now = now →
      ∀ u acct, env.user = some u → env.gmailAccount = some acct →
      env.gmailFetchErr = false →
      ∃ rest, runProcessSweep env =
        Eff.statusProcessing :: Eff.listCall (planOf env.planVal)
          (getIncrementalScanDate events now 24) :: rest) := by
  refine ⟨?_, ?_, ?_⟩
  · intro d
    cases hmr : mostRecentCompleted events with
    | none => simp [getIncrementalScanDate, hmr]
    | some ev =>
      cases hst : ev.startedAt with
      | none => simp [getIncrementalScanDate, hmr, hst]
      | some t =>
        simp only [getIncrementalScanDate, hmr, hst]
        split
        case isTrue hlt =>
          refine ⟨fun h => absurd h (by simp), ?_⟩
          rintro ⟨ev2, hev2, hst2, hle⟩
          injection hev2 with hev2
          subst hev2
          rw [hst] at hst2
          injection hst2 with hst2
          subst hst2
          exact absurd hle (by omega)
        case isFalse hlt =>
          constructor
          · intro hd
            injection hd with hd
            subst hd
            exact ⟨ev, rfl, hst, by omega⟩
          · rintro ⟨ev2, hev2, hst2, _⟩
            injection hev2 with hev2
            subst hev2
            rw [hst] at hst2
            injection hst2 with hst2
            subst hst2
            rfl
  · intro ev s c hmr hst hc hsc hold
    simp only [getIncrementalScanDate, hmr, hst]
    split
    case isTrue h => rfl
    case isFalse h => exact absurd (by omega) h
  · intro env hev hnow u acct hu hacct herr
    subst hev hnow
    exact runProcessSweep_prefix env u acct hu hacct herr

/-- Witness for C1 at concrete inputs: a sweep started 23 hours ago yields
an incremental scan whose since-instant is the start instant and is passed
to the lister; a sweep finished long ago forces a full scan. -/
theorem c1_incremental_by_start_witness :
    (getIncrementalScanDate c1WEvents 86400000 24 = some 3600000 ↔
      ∃ ev, mostRecentCompleted c1WEvents = some ev ∧ ev.startedAt = some 3600000 ∧
        (86400000 : Int) - 3600000 ≤ 24 * 3600000) ∧
    getIncrementalScanDate c1OldEvents (100 * 3600000) 24 = none ∧
    (∃ rest, runProcessSweep c1Env =
      Eff.statusProcessing :: Eff.listCall (planOf c1Env.planVal)
        (getIncrementalScanDate c1WEvents 86400000 24) :: rest) := by
  refine ⟨(c1_incremental_by_start c1WEvents 86400000).1 3600000, ?_, ?_⟩
  · exact (c1_incremental_by_start c1OldEvents (100 * 3600000)).2.1
      { startedAt := some 0, completedAt := some 3600000, status := strL ("completed") }
      0 3600000 (by decide) rfl rfl (by decide) (by decide)
  · exact (c1_incremental_by_start c1WEvents 86400000).2.2 c1Env rfl rfl
      (strL ("u@x.com")) _ rfl rfl rfl

theorem ensureValid_persist_indep {α : Type} (env : TokEnv α) (p : Nat → Bool) :
    (ensureValidAccessToken { env with persistOk := p }).1 =
      (ensureValidAccessToken env).1 ∧
    (ensureValidAccessToken { env with persistOk := p }).2.2 =
      (ensureValidAccessToken env).2.2 := by
  have hrt : refreshTokOf { env with persistOk := p } = refreshTokOf env := rfl
  cases hexp : env.acct.tokenExpiresAtSec with
  | none => simp [ensureValidAccessToken, hexp, hrt]
  | some expiry =>
    cases hr : refreshTokOf env with
    | none => simp [ensureValidAccessToken, hexp, hrt, hr]
    | some rt =>
      by_cases hc : expiry ≠ 0 ∧ expiry < env.nowSec
      · cases hf : env.refreshFn 0 with
        | ok r => simp [ensureValidAccessToken, hexp, hrt, hr, hc, hf]
        | error e => simp [ensureValidAccessToken, hexp, hrt, hr, hc, hf]
      · simp [ensureValidAccessToken, hexp, hrt, hr, hc]

theorem withTokenRefresh_persist_indep {α : Type} (env : TokEnv α) (x : Nat → Bool) :
    (withTokenRefresh { env with persistOk := x }).1 = (withTokenRefresh env).1 := by
  obtain ⟨h1, h2⟩ := ensureValid_persist_indep env x
  rcases hens : ensureValidAccessToken env with ⟨res, evs, rc⟩
  rcases hensx : ensureValidAccessToken { env with persistOk := x } with ⟨resx, evsx, rcx⟩
  rw [hens, hensx] at h1 h2
  simp only at h1 h2
  subst h1 h2
  have hop0 : ({ env with persistOk := x } : TokEnv α).op = env.op := rfl
  have hrt : refreshTokOf { env with persistOk := x } = refreshTokOf env := rfl
  cases resx with
  | error e => simp [withTokenRefresh, hens, hensx]
  | ok tok =>
    cases hop : env.op 0 tok with
    | ok v => simp [withTokenRefresh, hens, hensx, hop0, hop]
    | error e =>
      by_cases hauth : isGmailAuthError e = true
      · cases hr : refreshTokOf env with
        | none => simp [withTokenRefresh, hens, hensx, hop0, hop, hauth, hrt, hr]
        | some rt =>
          cases hrf : env.refreshFn rcx with
          | error e2 =>
            simp [withTokenRefresh, hens, hensx, hop0, hop, hauth, hrt, hr, hrf]
          | ok r =>
            cases hop1 : env.op 1 r.accessToken with
            | ok v =>
              simp [withTokenRefresh, hens, hensx, hop0, hop, hauth, hrt, hr, hrf, hop1]
            | error e3 =>
              simp [withTokenRefresh, hens, hensx, hop0, hop, hauth, hrt, hr, hrf, hop1]
      · simp [withTokenRefresh, hens, hensx, hop0, hop, hauth]

/-- C2 counterexample: in `c2Env` the persisting update FAILS
(`persistOk 0 = false`), yet the wrapper does not abort: it retries the
operation with the unsaved refreshed token and returns its success. -/
theorem c2_counterexample :
    c2Env.persistOk 0 = false ∧
    withTokenRefresh c2Env =
      (Except.ok 7,
       [TokEv.evOp 0 (strL ("enc1")), TokEv.evRefresh 0,
        TokEv.evPersist 0 (strL ("tok2")) false, TokEv.evOp 1 (strL ("tok2"))]) := by
  exact ⟨rfl, by decide⟩

/-- C2 (amended): whenever the token lifecycle wrapper performs a refresh -
proactive or reactive after an AuthError - the update persisting the new
encrypted access token and expiry is issued before the operation is
(re)invoked; however the update's error result is never read, so a failed
persist does not abort: the operation is retried with the refreshed token
and the overall result is independent of the persist outcome. -/
theorem c2_persist_before_retry {α : Type} (env : TokEnv α) :
    (∀ tok evs rc, ensureValidAccessToken env = (Except.ok tok, evs, rc) →
      ∀ e, env.op 0 tok = Except.error e → isGmailAuthError e = true →
      refreshTokOf env ≠ none →
      ∀ r, env.refreshFn rc = Except.ok r →
      withTokenRefresh env =
        ((env.op 1 r.accessToken).mapError RunErr.opErr,
         evs ++ [TokEv.evOp 0 tok, TokEv.evRefresh rc,
                 TokEv.evPersist rc (env.enc r.accessToken) (env.persistOk rc),
                 TokEv.evOp 1 r.accessToken])) ∧
    (∀ expiry, env.acct.tokenExpiresAtSec = some expiry → expiry ≠ 0 →
      expiry < env.nowSec → refreshTokOf env ≠ none →
      ∀ r, env.refreshFn 0 = Except.ok r →
      ensureValidAccessToken env =
        (Except.ok r.accessToken,
         [TokEv.evRefresh 0,
          TokEv.evPersist 0 (env.enc r.accessToken) (env.persistOk 0)], 1)) ∧
    (∀ p q : Nat → Bool,
      (withTokenRefresh { env with persistOk := p }).1 =
      (withTokenRefresh { env with persistOk := q }).1) := by
  refine ⟨?_, ?_, ?_⟩
  · intro tok evs rc hens e hop hauth hne r hrefresh
    obtain ⟨rt, hrt⟩ := Option.ne_none_iff_exists'.mp hne
    cases hop1 : env.op 1 r.accessToken with
    | ok v =>
      simp [withTokenRefresh, hens, hop, hauth, hrt, hrefresh, hop1, Except.mapError]
    | error e2 =>
      simp [withTokenRefresh, hens, hop, hauth, hrt, hrefresh, hop1, Except.mapError]
  · intro expiry hexp hne0 hlt hne r hrefresh
    obtain ⟨rt, hrt⟩ := Option.ne_none_iff_exists'.mp hne
    simp [ensureValidAccessToken, hexp, hrt, hne0, hlt, hrefresh]
  · intro p q
    exact (withTokenRefresh_persist_indep env p).trans
      (withTokenRefresh_persist_indep env q).symm

/-- Witness for C2's amended claim at `c2Env` (reactive) and `c2EnvPro`
(proactive). -/
theorem c2_persist_before_retry_witness :
    withTokenRefresh c2Env =
      ((c2Env.op 1 (strL ("tok2"))).mapError RunErr.opErr,
       [TokEv.evOp 0 (strL ("enc1")), TokEv.evRefresh 0,
        TokEv.evPersist 0 (strL ("tok2")) false, TokEv.evOp 1 (strL ("tok2"))]) ∧
    ensureValidAccessToken c2EnvPro =
      (Except.ok (strL ("tok2")),
       [TokEv.evRefresh 0, TokEv.evPersist 0 (strL ("tok2")) false], 1) ∧
    (withTokenRefresh { c2Env with persistOk := fun _ => true }).1 =
    (withTokenRefresh { c2Env with persistOk := fun _ => false }).1 := by
  refine ⟨?_, ?_, (c2_persist_before_retry c2Env).2.2 _ _⟩
  · have h := (c2_persist_before_retry c2Env).1 (strL ("enc1")) [] 0 (by decide)
      c7AuthErr rfl (by decide) (by decide)
      { accessToken := strL ("tok2"), expiresIn := 3600 } rfl
    simpa using h
  · exact (c2_persist_before_retry c2EnvPro).2.1 10 rfl (by decide) (by decide)
      (by decide) { accessToken := strL ("tok2"), expiresIn := 3600 } rfl

/-- C3: when the owning user cannot be resolved before any external work
begins, the code sends the failure notification and writes nothing durable -
but, contrary to the claim and to the spec's PreconditionError contract, it
does NOT terminate the job in the failed state: the whole trace is the one
notification, with no status transition at all, so the job stays `pending`
and will be re-claimed by the poller.  This theorem documents the code's
behaviour at the failing input. -/
theorem c3_user_missing_no_failed_state (env : SweepEnv) (h : env.user = none) :
    runProcessSweep env = [Eff.notifyFailed] ∧
    Eff.notifyFailed ∈ runProcessSweep env ∧
    Eff.statusFailed ∉ runProcessSweep env ∧
    Eff.statusProcessing ∉ runProcessSweep env ∧
    Eff.deleteLinks ∉ runProcessSweep env ∧
    (∀ rows, Eff.upsertLinks rows ∉ runProcessSweep env) := by
  have he : runProcessSweep env = [Eff.notifyFailed] := by
    simp [runProcessSweep, h]
  rw [he]
  refine ⟨rfl, by simp, by simp, by simp, by simp, fun rows => by simp⟩

/-- Witness for C3 at the concrete failing environment. -/
theorem c3_user_missing_no_failed_state_witness :
    c3Env.user = none ∧
    runProcessSweep c3Env = [Eff.notifyFailed] ∧
    Eff.statusFailed ∉ runProcessSweep c3Env :=
  ⟨rfl, (c3_user_missing_no_failed_state c3Env rfl).1,
   (c3_user_missing_no_failed_state c3Env rfl).2.2.1⟩

theorem insertByConf_perm (x : DomainAggregate × Nat) (l : List (DomainAggregate × Nat)) :
    List.Perm (insertByConf x l) (x :: l) := by
  induction l with
  | nil => exact List.Perm.refl _
  | cons y ys ih =>
    unfold insertByConf
    split
    · exact List.Perm.refl _
    · exact (ih.cons y).trans (List.Perm.swap x y ys)

theorem sortAux_perm (l acc : List (DomainAggregate × Nat)) :
    List.Perm (l.foldl (fun acc x => insertByConf x acc) acc) (acc ++ l) := by
  induction l generalizing acc with
  | nil => simp
  | cons x rest ih =>
    refine ((ih (insertByConf x acc)).trans ?_)
    refine (((insertByConf_perm x acc).append_right rest).trans ?_)
    exact List.perm_middle.symm

theorem sortByConfDesc_perm (l : List (DomainAggregate × Nat)) :
    List.Perm (sortByConfDesc l) l := by
  simpa using sortAux_perm l []

theorem insertByConf_sorted (x : DomainAggregate × Nat)
    (l : List (DomainAggregate × Nat)) (h : SortedDesc l) :
    SortedDesc (insertByConf x l) := by
  induction l with
  | nil => simp [insertByConf, SortedDesc]
  | cons y ys ih =>
    simp only [SortedDesc, List.pairwise_cons] at h
    obtain ⟨hy, hys⟩ := h
    unfold insertByConf
    split
    case isTrue hlt =>
      simp only [SortedDesc, List.pairwise_cons]
      refine ⟨?_, ?_, hys⟩
      · intro z hz
        rcases List.mem_cons.mp hz with hz | hz
        · subst hz; omega
        · have := hy z hz; omega
      · exact hy
    case isFalse hlt =>
      simp only [SortedDesc, List.pairwise_cons]
      refine ⟨?_, ih hys⟩
      intro z hz
      have hz2 : z ∈ x :: ys := (insertByConf_perm x ys).mem_iff.mp hz
      rcases List.mem_cons.mp hz2 with hz3 | hz3
      · subst hz3; omega
      · exact hy z hz3

theorem sortAux_sorted (l acc : List (DomainAggregate × Nat)) (h : SortedDesc acc) :
    SortedDesc (l.foldl (fun acc x => insertByConf x acc) acc) := by
  induction l generalizing acc with
  | nil => exact h
  | cons x rest ih => exact ih (insertByConf x acc) (insertByConf_sorted x acc h)

theorem sortByConfDesc_sorted (l : List (DomainAggregate × Nat)) :
    SortedDesc (sortByConfDesc l) :=
  sortAux_sorted l [] (by simp [SortedDesc])

/-- C8: in a successful free-plan sweep whose filtered, scored candidate
list has length n greater than 50, exactly the first 50 entries of the
stable descending-confidence ordering of the candidates are persisted as
user-service rows, while the completed-status update, the metrics row, the
notification and the completion email all report the full count n. -/
theorem c8_free_plan_caps_at_50 (env : SweepEnv) (u : Str) (acct : GmailAcct)
    (msgs : List Str) (metas : List EmailMeta) (summaries : List DomainAggregate)
    (bs : List Str)
    (hu : env.user = some u)
    (hplan : env.planVal = some (strL ("free")))
    (hacct : env.gmailAccount = some acct)
    (herr : env.gmailFetchErr = false)
    (hlist : env.listFn (strL ("free"))
      (getIncrementalScanDate env.events env.now 24) = Except.ok msgs)
    (hfetch : env.fetchFn msgs = Except.ok metas)
    (hsumm : env.summarizeFn metas = Except.ok summaries)
    (hbr : env.breachFn acct.gmailAddress = Except.ok bs)
    (hup : env.upsertLinksErr = false)
    (hn : 50 < (filterSpam (enrich summaries)).length) :
    runProcessSweep env =
      [Eff.statusProcessing,
       Eff.listCall (strL ("free")) (getIncrementalScanDate env.events env.now 24),
       Eff.fetchCall] ++
      (if ¬ (getIncrementalScanDate env.events env.now 24).isSome
       then [Eff.deleteLinks] else []) ++
      [Eff.upsertLinks
        (((sortByConfDesc (filterSpam (enrich summaries))).take 50).map mkLinkRow)] ++
      (if bs.length ≠ 0 then [Eff.upsertBreaches bs.length] else []) ++
      [Eff.metrics (filterSpam (enrich summaries)).length bs.length
         (getIncrementalScanDate env.events env.now 24).isSome,
       Eff.statusCompleted (filterSpam (enrich summaries)).length bs.length,
       Eff.setLastSweep,
       Eff.notifyCompleted (filterSpam (enrich summaries)).length bs.length,
       Eff.emailCompleted (filterSpam (enrich summaries)).length bs.length] ∧
    (((sortByConfDesc (filterSpam (enrich summaries))).take 50).map mkLinkRow).length
      = 50 ∧
    List.Perm (sortByConfDesc (filterSpam (enrich summaries)))
      (filterSpam (enrich summaries)) ∧
    SortedDesc (sortByConfDesc (filterSpam (enrich summaries))) := by
  have hplanOf : planOf env.planVal = strL ("free") := by rw [hplan]; decide
  have hpro : planOf env.planVal ≠ strL ("pro") := by rw [hplanOf]; decide
  have hsortlen : (sortByConfDesc (filterSpam (enrich summaries))).length =
      (filterSpam (enrich summaries)).length :=
    (sortByConfDesc_perm _).length_eq
  have htakelen : ((sortByConfDesc (filterSpam (enrich summaries))).take 50).length = 50 := by
    rw [List.length_take, hsortlen]
    omega
  have hmaplen :
      (((sortByConfDesc (filterSpam (enrich summaries))).take 50).map mkLinkRow).length
        = 50 := by
    rw [List.length_map, htakelen]
  have hrowsne :
      ((sortByConfDesc (filterSpam (enrich summaries))).take 50).map mkLinkRow ≠ [] := by
    intro hnil
    rw [hnil] at hmaplen
    simp at hmaplen
  have hfp : strL ("free") ≠ strL ("pro") := by decide
  have htakene : List.take 50 (sortByConfDesc (filterSpam (enrich summaries))) ≠ [] := by
    intro hnil
    rw [hnil] at htakelen
    simp at htakelen
  refine ⟨?_, hmaplen, sortByConfDesc_perm _, sortByConfDesc_sorted _⟩
  simp only [runProcessSweep, hu, hacct, herr, hplanOf, hlist, hfetch, hsumm, hbr,
    Bool.false_eq_true, if_false, if_pos hpro]
  have hsortne : sortByConfDesc (filterSpam (enrich summaries)) ≠ [] := by
    intro hnil
    rw [hnil] at hsortlen
    simp at hsortlen
    omega
  simp only [saveSweepDataEff, hup]
  simp [hfp, htakene, hrowsne, hsortne]

/-- Witness for C8: 70 candidates on the free plan, 50 rows persisted, the
full count reported on the completed status. -/
theorem c8_free_plan_caps_at_50_witness :
    (50 < (filterSpam (enrich (List.replicate 70 c8Agg))).length) ∧
    (((sortByConfDesc (filterSpam (enrich (List.replicate 70 c8Agg)))).take 50).map
      mkLinkRow).length = 50 ∧
    Eff.statusCompleted (filterSpam (enrich (List.replicate 70 c8Agg))).length 0 ∈
      runProcessSweep c8Env := by
  have h := c8_free_plan_caps_at_50 c8Env (strL ("u@x.com")) _ [] []
    (List.replicate 70 c8Agg) [] rfl rfl rfl rfl rfl rfl rfl rfl rfl (by decide)
  refine ⟨by decide, h.2.1, ?_⟩
  rw [h.1]
  simp

/-- C6 counterexample: `c6AggB` is `c6AggA` with its two collected subjects
swapped (a permutation, all other fields identical), yet the confidence
score differs (14 against 4): the subjects are joined with a single space
before the regex tests, so the phrase `account created` appears across the
boundary in one order only. -/
theorem c6_counterexample :
    List.Perm c6AggB.subjects c6AggA.subjects ∧
    c6AggB.domain = c6AggA.domain ∧
    c6AggB.emailCount = c6AggA.emailCount ∧
    c6AggB.subject = c6AggA.subject ∧
    calculateConfidenceScore (summaryOfAggregate c6AggA) = 14 ∧
    calculateConfidenceScore (summaryOfAggregate c6AggB) = 4 := by
  exact ⟨by decide, rfl, rfl, rfl, by decide, by decide⟩

/-- C6 (amended): the confidence score is an additive sum of signals, and it
is invariant under permutation of the collected subjects PROVIDED every
subject-signal phrase matches the space-joined subject text exactly when it
matches some single subject (no match spans the boundary between adjacent
subjects), for both orders; in general the single-space join makes the
score order-dependent. -/
theorem c6_score_perm_invariant (a : DomainAggregate) (l2 : List Str)
    (hperm : List.Perm a.subjects l2)
    (hlocal : ∀ g ∈ subjectPatGroups, ∀ p ∈ g,
      ((substrOf p (subjBlob (summaryOfAggregate a)) = true ↔
        ∃ s ∈ a.subjects, substrOf p (lowerStr s) = true) ∧
       (substrOf p (subjBlob (summaryOfAggregate { a with subjects := l2 })) = true ↔
        ∃ s ∈ l2, substrOf p (lowerStr s) = true))) :
    calculateConfidenceScore (summaryOfAggregate { a with subjects := l2 }) =
      calculateConfidenceScore (summaryOfAggregate a) := by
  have key : ∀ g ∈ subjectPatGroups,
      patAny g (subjBlob (summaryOfAggregate { a with subjects := l2 })) =
      patAny g (subjBlob (summaryOfAggregate a)) := by
    intro g hg
    have h2 : patAny g (subjBlob (summaryOfAggregate { a with subjects := l2 })) = true ↔
        ∃ p ∈ g, ∃ s ∈ l2, substrOf p (lowerStr s) = true := by
      rw [patAny, List.any_eq_true]
      constructor
      · rintro ⟨p, hp, hmatch⟩
        exact ⟨p, hp, ((hlocal g hg p hp).2).mp hmatch⟩
      · rintro ⟨p, hp, hs⟩
        exact ⟨p, hp, ((hlocal g hg p hp).2).mpr hs⟩
    have h1 : patAny g (subjBlob (summaryOfAggregate a)) = true ↔
        ∃ p ∈ g, ∃ s ∈ a.subjects, substrOf p (lowerStr s) = true := by
      rw [patAny, List.any_eq_true]
      constructor
      · rintro ⟨p, hp, hmatch⟩
        exact ⟨p, hp, ((hlocal g hg p hp).1).mp hmatch⟩
      · rintro ⟨p, hp, hs⟩
        exact ⟨p, hp, ((hlocal g hg p hp).1).mpr hs⟩
    have hiff : patAny g (subjBlob (summaryOfAggregate { a with subjects := l2 })) = true ↔
        patAny g (subjBlob (summaryOfAggregate a)) = true := by
      rw [h1, h2]
      constructor
      · rintro ⟨p, hp, s, hs, hm⟩
        exact ⟨p, hp, s, hperm.mem_iff.mpr hs, hm⟩
      · rintro ⟨p, hp, s, hs, hm⟩
        exact ⟨p, hp, s, hperm.mem_iff.mp hs, hm⟩
    cases hb1 : patAny g (subjBlob (summaryOfAggregate { a with subjects := l2 })) with
    | false =>
      cases hb0 : patAny g (subjBlob (summaryOfAggregate a)) with
      | false => rfl
      | true => exact absurd (hiff.mpr hb0) (by simp [hb1])
    | true => rw [hiff.mp hb1]
  have k1 := key onboardingPats (by simp [subjectPatGroups])
  have k2 := key verifyPats (by simp [subjectPatGroups])
  have k3 := key securityPats (by simp [subjectPatGroups])
  have k4 := key transactPats (by simp [subjectPatGroups])
  have k5 := key subscriptionPats (by simp [subjectPatGroups])
  have k6 := key mgmtPats (by simp [subjectPatGroups])
  simp only [calculateConfidenceScore, k1, k2, k3, k4, k5, k6]
  simp only [summaryOfAggregate]

/-- Witness for C6: two subjects with no cross-boundary phrase; swapping
them leaves the score unchanged. -/
theorem c6_score_perm_invariant_witness :
    calculateConfidenceScore
      (summaryOfAggregate { c6WAgg with subjects := [strL ("receipt"), strL ("welcome")] }) =
    calculateConfidenceScore (summaryOfAggregate c6WAgg) :=
  c6_score_perm_invariant c6WAgg [strL ("receipt"), strL ("welcome")]
    (by decide) (by decide)

/-- Every aggregate produced by the second pass of `summarizeByDomain`
originates from a group entry, and its contact fields are determined by
whether an observed sender address matched the support or privacy pattern. -/
theorem summarizeSecond_char (st : SvcStore) :
    ∀ groups cache out, summarizeSecond st groups cache = Except.ok out →
    ∀ a ∈ out, ∃ gd, gd ∈ groups ∧ a.domain = gd.1 ∧
      a.contactConfidence =
        (if (extractContactEmails gd.2.fromAddresses).1.isSome ||
            (extractContactEmails gd.2.fromAddresses).2.isSome
         then Conf.high else Conf.low) ∧
      a.supportEmail =
        (if (extractContactEmails gd.2.fromAddresses).1.isSome ||
            (extractContactEmails gd.2.fromAddresses).2.isSome
         then (extractContactEmails gd.2.fromAddresses).1
         else some (strL ("support@") ++ gd.1)) ∧
      a.privacyEmail =
        (if (extractContactEmails gd.2.fromAddresses).1.isSome ||
            (extractContactEmails gd.2.fromAddresses).2.isSome
         then (extractContactEmails gd.2.fromAddresses).2
         else some (strL ("privacy@") ++ gd.1)) := by
  intro groups
  induction groups with
  | nil =>
    intro cache out h a ha
    simp only [summarizeSecond] at h
    injection h with h2
    subst h2
    simp at ha
  | cons gd rest ih =>
    obtain ⟨domain, data⟩ := gd
    intro cache out h a ha
    simp only [summarizeSecond] at h
    cases hfp : findPair cache domain with
    | some cid =>
      simp only [hfp] at h
      cases hrec : summarizeSecond st rest cache with
      | error e =>
        rw [hrec] at h
        exact Except.noConfusion h
      | ok more =>
        rw [hrec] at h
        injection h with h2
        subst h2
        rcases List.mem_cons.mp ha with rfl | hmem
        · exact ⟨(domain, data), List.mem_cons_self _ _, rfl, rfl, rfl, rfl⟩
        · obtain ⟨gd2, hgd2, hrest⟩ := ih cache more hrec a hmem
          exact ⟨gd2, List.mem_cons_of_mem _ hgd2, hrest⟩
    | none =>
      simp only [hfp] at h
      cases hres : resolveService st domain with
      | error e =>
        simp only [hres] at h
        exact Except.noConfusion h
      | ok sid =>
        cases sid with
        | none =>
          simp only [hres] at h
          cases hrec : summarizeSecond st rest cache with
          | error e =>
            rw [hrec] at h
            exact Except.noConfusion h
          | ok more =>
            rw [hrec] at h
            injection h with h2
            subst h2
            rcases List.mem_cons.mp ha with rfl | hmem
            · exact ⟨(domain, data), List.mem_cons_self _ _, rfl, rfl, rfl, rfl⟩
            · obtain ⟨gd2, hgd2, hrest⟩ := ih cache more hrec a hmem
              exact ⟨gd2, List.mem_cons_of_mem _ hgd2, hrest⟩
        | some sidv =>
          simp only [hres] at h
          cases hrec : summarizeSecond st rest (cache ++ [(domain, sidv)]) with
          | error e =>
            rw [hrec] at h
            exact Except.noConfusion h
          | ok more =>
            rw [hrec] at h
            injection h with h2
            subst h2
            rcases List.mem_cons.mp ha with rfl | hmem
            · exact ⟨(domain, data), List.mem_cons_self _ _, rfl, rfl, rfl, rfl⟩
            · obtain ⟨gd2, hgd2, hrest⟩ := ih _ more hrec a hmem
              exact ⟨gd2, List.mem_cons_of_mem _ hgd2, hrest⟩

/-- Updating an association-list entry in place never changes its keys. -/
theorem assocUpdate_keys (l : List (Str × DomainGroup)) (k : Str)
    (f : DomainGroup → DomainGroup) :
    (assocUpdate l k f).map Prod.fst = l.map Prod.fst := by
  simp only [assocUpdate, List.map_map]
  refine List.map_congr_left ?_
  intro p hp
  by_cases h : p.1 = k <;> simp [Function.comp, h]

/-- Membership test of the association list agrees with key membership. -/
theorem assocHas_iff (l : List (Str × DomainGroup)) (k : Str) :
    assocHas l k = true ↔ k ∈ l.map Prod.fst := by
  simp only [assocHas, List.any_eq_true, decide_eq_true_eq, List.mem_map]

/-- One grouping step preserves distinctness of the domain keys. -/
theorem insertMeta_nodup (parseDateIso : Str → Str)
    (groups : List (Str × DomainGroup)) (m : EmailMeta)
    (h : (groups.map Prod.fst).Nodup) :
    ((insertMeta parseDateIso groups m).map Prod.fst).Nodup := by
  cases hd : extractDomain (extractEmailAddress m.fromH) with
  | none => simpa only [insertMeta, hd] using h
  | some domain =>
    simp only [insertMeta, hd]
    by_cases hh : assocHas groups domain = true
    · rw [if_pos hh, assocUpdate_keys]
      exact h
    · rw [if_neg hh, List.map_append, List.nodup_append]
      refine ⟨h, List.nodup_singleton _, ?_⟩
      intro x hx hx2
      simp only [List.map_cons, List.map_nil, List.mem_singleton] at hx2
      subst hx2
      exact hh ((assocHas_iff groups x).mpr hx)

/-- The grouping pass of `summarizeByDomain` produces distinct domain keys. -/
theorem groupByDomain_nodup (parseDateIso : Str → Str) (metas : List EmailMeta) :
    ((groupByDomain parseDateIso metas).map Prod.fst).Nodup := by
  have hgen : ∀ (acc : List (Str × DomainGroup)), (acc.map Prod.fst).Nodup →
      ((metas.foldl (insertMeta parseDateIso) acc).map Prod.fst).Nodup := by
    induction metas with
    | nil => exact fun acc h => h
    | cons m rest ih =>
      intro acc h
      simp only [List.foldl_cons]
      exact ih _ (insertMeta_nodup _ _ _ h)
  exact hgen [] (by simp)

/-- In an association list with distinct keys, a key determines its value. -/
theorem assoc_mem_unique {α : Type} {l : List (Str × α)}
    (h : (l.map Prod.fst).Nodup) {k : Str} {g1 g2 : α}
    (h1 : (k, g1) ∈ l) (h2 : (k, g2) ∈ l) : g1 = g2 := by
  induction l with
  | nil => cases h1
  | cons p rest ih =>
    simp only [List.map_cons, List.nodup_cons] at h
    rcases List.mem_cons.mp h1 with he1 | hm1
    · rcases List.mem_cons.mp h2 with he2 | hm2
      · exact congrArg Prod.snd (he1.trans he2.symm)
      · subst he1
        exact absurd (List.mem_map.mpr ⟨(k, g2), hm2, rfl⟩) h.1
    · rcases List.mem_cons.mp h2 with he2 | hm2
      · subst he2
        exact absurd (List.mem_map.mpr ⟨(k, g1), hm1, rfl⟩) h.1
      · exact ih h.2 hm1 hm2

/-- C10: every aggregate returned by `summarizeByDomain` has a contact
confidence that is never `medium`: it is `high` exactly when some observed
sender address of the aggregate's group matches the support or privacy
pattern, and otherwise it is `low` and both contact addresses are the
synthesized `support@domain` / `privacy@domain`. -/
theorem c10_contact_confidence (st : SvcStore) (parseDateIso : Str → Str)
    (metas : List EmailMeta) (out : List DomainAggregate)
    (h : summarizeByDomain st parseDateIso metas = Except.ok out) :
    ∀ a ∈ out,
      a.contactConfidence ≠ Conf.medium ∧
      (a.contactConfidence = Conf.high ∨ a.contactConfidence = Conf.low) ∧
      ∀ grp, (a.domain, grp) ∈ groupByDomain parseDateIso metas →
        ((a.contactConfidence = Conf.high ↔
            ∃ e ∈ observedEmails grp.fromAddresses,
              (supportMatch e || privacyMatch e) = true) ∧
          (a.contactConfidence = Conf.low →
            a.supportEmail = some (strL ("support@") ++ a.domain) ∧
            a.privacyEmail = some (strL ("privacy@") ++ a.domain))) := by
  intro a ha
  obtain ⟨⟨d, g⟩, hgd, hdom, hconf, hsup, hpriv⟩ :=
    summarizeSecond_char st (groupByDomain parseDateIso metas) [] out h a ha
  have hkey : ∀ grp, (a.domain, grp) ∈ groupByDomain parseDateIso metas → grp = g := by
    intro grp hgrp
    rw [hdom] at hgrp
    exact assoc_mem_unique (groupByDomain_nodup _ _) hgrp hgd
  have hfst : (extractContactEmails g.fromAddresses).1
      = (observedEmails g.fromAddresses).find? supportMatch := rfl
  have hsnd : (extractContactEmails g.fromAddresses).2
      = (observedEmails g.fromAddresses).find? privacyMatch := rfl
  have hhit : ((extractContactEmails g.fromAddresses).1.isSome ||
      (extractContactEmails g.fromAddresses).2.isSome) = true ↔
      ∃ e ∈ observedEmails g.fromAddresses,
        (supportMatch e || privacyMatch e) = true := by
    rw [hfst, hsnd]
    constructor
    · intro hb
      rcases cast (Bool.or_eq_true _ _) hb with h1 | h1
      · obtain ⟨e, he, hp⟩ := List.find?_isSome.mp h1
        exact ⟨e, he, by simp [hp]⟩
      · obtain ⟨e, he, hp⟩ := List.find?_isSome.mp h1
        exact ⟨e, he, by simp [hp]⟩
    · rintro ⟨e, he, hp⟩
      rcases cast (Bool.or_eq_true _ _) hp with h1 | h1
      · exact cast (Bool.or_eq_true _ _).symm
          (Or.inl (List.find?_isSome.mpr ⟨e, he, h1⟩))
      · exact cast (Bool.or_eq_true _ _).symm
          (Or.inr (List.find?_isSome.mpr ⟨e, he, h1⟩))
  by_cases hb : ((extractContactEmails g.fromAddresses).1.isSome ||
      (extractContactEmails g.fromAddresses).2.isSome) = true
  · rw [hconf, if_pos hb]
    refine ⟨by decide, Or.inl rfl, ?_⟩
    intro grp hgrp
    rw [hkey grp hgrp]
    exact ⟨⟨fun _ => hhit.mp hb, fun _ => rfl⟩,
           fun hlow => absurd hlow (by decide)⟩
  · rw [hconf, if_neg hb]
    refine ⟨by decide, Or.inr rfl, ?_⟩
    intro grp hgrp
    rw [hkey grp hgrp]
    refine ⟨⟨fun hc => absurd hc (by decide),
             fun hex => absurd (hhit.mpr hex) hb⟩, fun _ => ?_⟩
    constructor
    · rw [hsup, if_neg hb, hdom]
    · rw [hpriv, if_neg hb, hdom]

/-- Witness for C10: a concrete store and two senders (one support-like,
one plain) give a non-empty aggregate list whose confidences avoid
`medium`. -/
theorem c10_contact_confidence_witness :
    ∃ out, summarizeByDomain c10St c10Parse c10Metas = Except.ok out ∧
      out ≠ [] ∧ ∀ a ∈ out, a.contactConfidence ≠ Conf.medium ∧
        (a.contactConfidence = Conf.high ∨ a.contactConfidence = Conf.low) := by
  have hne : (match summarizeByDomain c10St c10Parse c10Metas with
    | Except.ok (_ :: _) => true
    | _ => false) = true := by decide
  cases hrun : summarizeByDomain c10St c10Parse c10Metas with
  | error e =>
    rw [hrun] at hne
    exact Bool.noConfusion hne
  | ok out =>
    cases out with
    | nil =>
      rw [hrun] at hne
      exact Bool.noConfusion hne
    | cons b bs =>
      refine ⟨b :: bs, rfl, by simp, ?_⟩
      intro a ha
      have hh := c10_contact_confidence c10St c10Parse c10Metas (b :: bs) hrun a ha
      exact ⟨hh.1, hh.2.1⟩

/-- Every base64 character decodes back to its six-bit value. -/
theorem b64Idx_b64Char : ∀ n < 64, b64Idx (b64Char n) = some n := by decide

/-- No base64 alphabet character is the padding or separator character. -/
theorem b64Char_ne : ∀ n < 64, b64Char n ≠ '=' ∧ b64Char n ≠ ('.') := by decide

/-- Decoding inverts encoding on byte lists (all bytes below 256). -/
theorem decodeB64_encodeB64 : ∀ bs : List Nat, (∀ b ∈ bs, b < 256) →
    decodeB64 (encodeB64 bs) = some bs
  | [], _ => rfl
  | [b1], h => by
    have hb1 : b1 < 256 := h b1 (by simp)
    have h1 := b64Idx_b64Char (b1 / 4) (by omega)
    have h2 := b64Idx_b64Char (b1 % 4 * 16) (by omega)
    simp only [encodeB64, decodeB64, h1, h2]
    simp
    omega
  | [b1, b2], h => by
    have hb1 : b1 < 256 := h b1 (by simp)
    have hb2 : b2 < 256 := h b2 (by simp)
    have h1 := b64Idx_b64Char (b1 / 4) (by omega)
    have h2 := b64Idx_b64Char (b1 % 4 * 16 + b2 / 16) (by omega)
    have h3 := b64Idx_b64Char (b2 % 16 * 4) (by omega)
    simp only [encodeB64, decodeB64, h1, h2]
    rw [if_neg (b64Char_ne (b2 % 16 * 4) (by omega)).1]
    simp only [h3]
    simp
    omega
  | b1 :: b2 :: b3 :: rest, h => by
    have hb1 : b1 < 256 := h b1 (by simp)
    have hb2 : b2 < 256 := h b2 (by simp)
    have hb3 : b3 < 256 := h b3 (by simp)
    have hrest : ∀ b ∈ rest, b < 256 := fun b hb => h b (by simp [hb])
    have ih := decodeB64_encodeB64 rest hrest
    have h1 := b64Idx_b64Char (b1 / 4) (by omega)
    have h2 := b64Idx_b64Char (b1 % 4 * 16 + b2 / 16) (by omega)
    have h3 := b64Idx_b64Char (b2 % 16 * 4 + b3 / 64) (by omega)
    have h4 := b64Idx_b64Char (b3 % 64) (by omega)
    simp only [encodeB64, decodeB64, h1, h2]
    rw [if_neg (b64Char_ne (b2 % 16 * 4 + b3 / 64) (by omega)).1]
    simp only [h3]
    rw [if_neg (b64Char_ne (b3 % 64) (by omega)).1]
    simp only [h4, ih]
    have e1 : b1 / 4 * 4 + (b1 % 4 * 16 + b2 / 16) / 16 = b1 := by omega
    have e2 : (b1 % 4 * 16 + b2 / 16) % 16 * 16 + (b2 % 16 * 4 + b3 / 64) / 4 = b2 := by
      omega
    have e3 : (b2 % 16 * 4 + b3 / 64) % 4 * 64 + b3 % 64 = b3 := by omega
    rw [e1, e2, e3]

/-- The dot separator never occurs inside an encoded byte list. -/
theorem dot_not_mem_encodeB64 : ∀ bs : List Nat, (∀ b ∈ bs, b < 256) →
    ('.') ∉ encodeB64 bs
  | [], _ => by simp [encodeB64]
  | [b1], h => by
    have hb1 : b1 < 256 := h b1 (by simp)
    intro hmem
    simp only [encodeB64, List.mem_cons, List.not_mem_nil, or_false] at hmem
    rcases hmem with he | he | he | he
    · exact (b64Char_ne (b1 / 4) (by omega)).2 he.symm
    · exact (b64Char_ne (b1 % 4 * 16) (by omega)).2 he.symm
    · exact absurd he (by decide)
    · exact absurd he (by decide)
  | [b1, b2], h => by
    have hb1 : b1 < 256 := h b1 (by simp)
    have hb2 : b2 < 256 := h b2 (by simp)
    intro hmem
    simp only [encodeB64, List.mem_cons, List.not_mem_nil, or_false] at hmem
    rcases hmem with he | he | he | he
    · exact (b64Char_ne (b1 / 4) (by omega)).2 he.symm
    · exact (b64Char_ne (b1 % 4 * 16 + b2 / 16) (by omega)).2 he.symm
    · exact (b64Char_ne (b2 % 16 * 4) (by omega)).2 he.symm
    · exact absurd he (by decide)
  | b1 :: b2 :: b3 :: rest, h => by
    have hb1 : b1 < 256 := h b1 (by simp)
    have hb2 : b2 < 256 := h b2 (by simp)
    have hb3 : b3 < 256 := h b3 (by simp)
    have ih := dot_not_mem_encodeB64 rest (fun b hb => h b (by simp [hb]))
    intro hmem
    simp only [encodeB64, List.mem_cons] at hmem
    rcases hmem with he | he | he | he | hmem2
    · exact (b64Char_ne (b1 / 4) (by omega)).2 he.symm
    · exact (b64Char_ne (b1 % 4 * 16 + b2 / 16) (by omega)).2 he.symm
    · exact (b64Char_ne (b2 % 16 * 4 + b3 / 64) (by omega)).2 he.symm
    · exact (b64Char_ne (b3 % 64) (by omega)).2 he.symm
    · exact ih hmem2

/-- Splitting a separator-free string yields the string alone. -/
theorem splitChAux_nosep (sep : Char) : ∀ s : Str, sep ∉ s →
    splitChAux sep s = (s, []) := by
  intro s
  induction s with
  | nil => intro h; rfl
  | cons c cs ih =>
    intro h
    simp only [splitChAux]
    rw [ih (fun hm => h (List.mem_cons_of_mem _ hm))]
    rw [if_neg (fun he => h (List.mem_cons.mpr (Or.inl he.symm)))]

/-- Splitting peels one separator-free part off the front. -/
theorem splitChAux_append (sep : Char) : ∀ (a r : Str), sep ∉ a →
    splitChAux sep (a ++ sep :: r) =
      (a, (splitChAux sep r).1 :: (splitChAux sep r).2) := by
  intro a
  induction a with
  | nil =>
    intro r h
    simp [splitChAux]
  | cons c cs ih =>
    intro r h
    simp only [List.cons_append, splitChAux, List.append_eq]
    rw [ih r (fun hm => h (List.mem_cons_of_mem _ hm))]
    rw [if_neg (fun he => h (List.mem_cons.mpr (Or.inl he.symm)))]

/-- A string built of three dot-free parts splits into exactly those parts. -/
theorem splitCh_dots3 (a b c : Str) (ha : ('.') ∉ a) (hb : ('.') ∉ b)
    (hc : ('.') ∉ c) :
    splitCh '.' (a ++ '.' :: b ++ '.' :: c) = [a, b, c] := by
  have hsh : a ++ '.' :: b ++ '.' :: c = a ++ '.' :: (b ++ '.' :: c) := by
    simp [List.append_assoc]
  rw [hsh]
  simp only [splitCh]
  rw [splitChAux_append _ _ _ ha]
  rw [splitChAux_append _ _ _ hb]
  rw [splitChAux_nosep _ _ hc]

/-- Applying the same keystream twice restores the byte list. -/
theorem xorStream_xorStream (ksf : Nat → Nat) : ∀ (i : Nat) (bs : List Nat),
    xorStream ksf i (xorStream ksf i bs) = bs := by
  intro i bs
  induction bs generalizing i with
  | nil => rfl
  | cons b rest ih =>
    simp only [xorStream]
    rw [ih]
    rw [Nat.xor_assoc, Nat.xor_self, Nat.xor_zero]

/-- The keystream XOR keeps bytes below 256 when both inputs are bytes. -/
theorem xorStream_lt (ksf : Nat → Nat) (hks : ∀ j, ksf j < 256) :
    ∀ (i : Nat) (bs : List Nat), (∀ b ∈ bs, b < 256) →
    ∀ b ∈ xorStream ksf i bs, b < 256 := by
  intro i bs
  induction bs generalizing i with
  | nil =>
    intro hsrc b hb
    simp [xorStream] at hb
  | cons x rest ih =>
    intro hsrc b hb
    simp only [xorStream] at hb
    rcases List.mem_cons.mp hb with rfl | hm
    · have hx : x < 256 := hsrc x (List.mem_cons_self x rest)
      have hk : ksf i < 256 := hks i
      have h28 : (2 : Nat) ^ 8 = 256 := by norm_num
      exact h28 ▸ (Nat.xor_lt_two_pow (h28.symm ▸ hx) (h28.symm ▸ hk))
    · exact ih (i + 1) (fun y hy => hsrc y (List.mem_cons_of_mem _ hy)) b hm

/-- C9: encrypting a token and decrypting the result recovers the token:
with a well-formed 32-byte key, a byte-valued UTF-8 codec, byte-valued
keystream and tag primitives, `encryptToken` produces the dot-separated
`iv.ciphertext.tag` base64 triple and `decryptToken` restores the exact
original plaintext. -/
theorem c9_encrypt_decrypt_roundtrip
    (ks : List Nat → List Nat → Nat → Nat)
    (tagFn : List Nat → List Nat → List Nat → List Nat)
    (utf8Enc : Str → List Nat) (utf8Dec : List Nat → Str)
    (plain : Str) (iv : List Nat) (keyB64 : Str) (key : List Nat)
    (hdec : decodeB64 keyB64 = some key) (hkl : key.length = 32)
    (hud : utf8Dec (utf8Enc plain) = plain)
    (hpb : ∀ b ∈ utf8Enc plain, b < 256)
    (hiv : ∀ b ∈ iv, b < 256)
    (hks : ∀ i, ks key iv i < 256)
    (htag : ∀ b ∈ tagFn key iv (xorStream (ks key iv) 0 (utf8Enc plain)), b < 256) :
    ∃ enc, encryptTokenM ks tagFn utf8Enc plain iv keyB64 = some enc ∧
      decryptTokenM ks tagFn utf8Dec enc keyB64 = some plain := by
  have hct : ∀ b ∈ xorStream (ks key iv) 0 (utf8Enc plain), b < 256 :=
    xorStream_lt (ks key iv) hks 0 (utf8Enc plain) hpb
  refine ⟨encodeB64 iv ++ '.' ::
      encodeB64 (xorStream (ks key iv) 0 (utf8Enc plain)) ++ '.' ::
      encodeB64 (tagFn key iv (xorStream (ks key iv) 0 (utf8Enc plain))), ?_, ?_⟩
  · simp only [encryptTokenM, hdec]
    rw [if_neg (fun hne => hne hkl)]
  · simp only [decryptTokenM]
    rw [splitCh_dots3 _ _ _ (dot_not_mem_encodeB64 iv hiv)
      (dot_not_mem_encodeB64 _ hct) (dot_not_mem_encodeB64 _ htag)]
    simp only [hdec, decodeB64_encodeB64 iv hiv, decodeB64_encodeB64 _ hct,
      decodeB64_encodeB64 _ htag]
    rw [if_neg (fun hne => hne hkl)]
    rw [if_neg (fun hne => hne rfl)]
    rw [xorStream_xorStream, hud]

/-- Witness for C9 at a constant keystream, a fixed two-byte tag, the
code-point codec, a two-byte IV and the all-zero 32-byte key. -/
theorem c9_encrypt_decrypt_roundtrip_witness :
    ∃ enc,
      encryptTokenM (fun _ _ _ => 7) (fun _ _ _ => [1, 2])
        (fun s => s.map Char.toNat) (strL ("tok")) [5, 6]
        (encodeB64 (List.replicate 32 0)) = some enc ∧
      decryptTokenM (fun _ _ _ => 7) (fun _ _ _ => [1, 2])
        (fun bs => bs.map Char.ofNat) enc
        (encodeB64 (List.replicate 32 0)) = some (strL ("tok")) :=
  c9_encrypt_decrypt_roundtrip (fun _ _ _ => 7) (fun _ _ _ => [1, 2])
    (fun s => s.map Char.toNat) (fun bs => bs.map Char.ofNat)
    (strL ("tok")) [5, 6] (encodeB64 (List.replicate 32 0)) (List.replicate 32 0)
    (by decide) (by decide) (by decide) (by decide) (by decide)
    (fun _ => by show (7 : Nat) < 256; decide) (by decide)

/-- Evaluating `Char.ofNat` below the surrogate range. -/
theorem charOfNat_toNat (n : Nat) (h : n < 55296) : (Char.ofNat n).toNat = n := by
  have hv : Nat.isValidChar n := Or.inl h
  rw [Char.ofNat, dif_pos hv]
  rfl

/-- ASCII lower-casing is idempotent. -/
theorem lowerChar_idem (c : Char) : lowerChar (lowerChar c) = lowerChar c := by
  by_cases h : 65 ≤ c.toNat ∧ c.toNat ≤ 90
  · have h1 : lowerChar c = Char.ofNat (c.toNat + 32) := by
      unfold lowerChar
      rw [if_pos h]
    have ht : (Char.ofNat (c.toNat + 32)).toNat = c.toNat + 32 :=
      charOfNat_toNat _ (by omega)
    rw [h1]
    unfold lowerChar
    rw [if_neg (by rw [ht]; omega)]
  · have h1 : lowerChar c = c := by
      unfold lowerChar
      rw [if_neg h]
    rw [h1, h1]

/-- Every character of a lower-cased string is fixed by lower-casing. -/
theorem lowerStr_chars (s : Str) : ∀ c ∈ lowerStr s, lowerChar c = c := by
  intro c hc
  simp only [lowerStr] at hc
  obtain ⟨c0, _, rfl⟩ := List.mem_map.mp hc
  exact lowerChar_idem c0

/-- Lower-casing fixes a string whose characters it fixes. -/
theorem lowerStr_fixed : ∀ s : Str, (∀ c ∈ s, lowerChar c = c) → lowerStr s = s
  | [], _ => rfl
  | c :: r, h => by
    simp only [lowerStr, List.map_cons]
    rw [h c (List.mem_cons_self c r)]
    have hr := lowerStr_fixed r (fun x hx => h x (List.mem_cons_of_mem _ hx))
    simp only [lowerStr] at hr
    rw [hr]

/-- Trimming only removes characters. -/
theorem trimStr_subset (s : Str) : ∀ c ∈ trimStr s, c ∈ s := by
  intro c hc
  simp only [trimStr] at hc
  rw [List.mem_reverse] at hc
  have h2 := (List.dropWhile_sublist _).subset hc
  rw [List.mem_reverse] at h2
  exact (List.dropWhile_sublist _).subset h2

/-- Stripping trailing dots only removes characters. -/
theorem stripTrailingDots_subset (s : Str) : ∀ c ∈ stripTrailingDots s, c ∈ s := by
  intro c hc
  simp only [stripTrailingDots] at hc
  rw [List.mem_reverse] at hc
  have h2 := (List.dropWhile_sublist _).subset hc
  rw [List.mem_reverse] at h2
  exact h2

/-- Dropping a prefix by a predicate is idempotent. -/
theorem dropWhile_idem (p : Char → Bool) (l : Str) :
    (l.dropWhile p).dropWhile p = l.dropWhile p := by
  induction l with
  | nil => rfl
  | cons c r ih =>
    rw [List.dropWhile_cons]
    by_cases h : p c = true
    · rw [if_pos h]
      exact ih
    · rw [if_neg h, List.dropWhile_cons, if_neg h]

/-- Stripping trailing dots is idempotent. -/
theorem stripTrailingDots_idem (s : Str) :
    stripTrailingDots (stripTrailingDots s) = stripTrailingDots s := by
  simp only [stripTrailingDots, List.reverse_reverse]
  rw [dropWhile_idem]

/-- A string ending in a character other than a dot is fixed by the
trailing-dot strip. -/
theorem stripTrailingDots_concat (t : Str) (c : Char) (hc : c ≠ '.') :
    stripTrailingDots (t ++ [c]) = t ++ [c] := by
  simp only [stripTrailingDots, List.reverse_append, List.reverse_cons,
    List.reverse_nil, List.nil_append, List.singleton_append]
  rw [List.dropWhile_cons, if_neg (by simp [hc])]
  simp [List.reverse_cons, List.reverse_reverse]

/-- The separator never occurs inside the segments of a split. -/
theorem splitChAux_no_sep (sep : Char) : ∀ s : Str,
    sep ∉ (splitChAux sep s).1 ∧ ∀ p ∈ (splitChAux sep s).2, sep ∉ p := by
  intro s
  induction s with
  | nil => exact ⟨List.not_mem_nil sep, fun p hp => absurd hp (List.not_mem_nil p)⟩
  | cons c r ih =>
    simp only [splitChAux]
    by_cases hc : c = sep
    · rw [if_pos hc]
      refine ⟨List.not_mem_nil sep, fun p hp => ?_⟩
      rcases List.mem_cons.mp hp with rfl | hm
      · exact ih.1
      · exact ih.2 p hm
    · rw [if_neg hc]
      refine ⟨fun hmem => ?_, ih.2⟩
      rcases List.mem_cons.mp hmem with he | hm
      · exact hc he.symm
      · exact ih.1 hm

/-- No split segment contains the separator. -/
theorem splitCh_no_sep (sep : Char) (s : Str) : ∀ p ∈ splitCh sep s, sep ∉ p := by
  intro p hp
  rcases List.mem_cons.mp hp with rfl | hm
  · exact (splitChAux_no_sep sep s).1
  · exact (splitChAux_no_sep sep s).2 p hm

/-- Characters of split segments come from the source string. -/
theorem splitChAux_chars (sep : Char) : ∀ s : Str,
    (∀ c ∈ (splitChAux sep s).1, c ∈ s) ∧
    (∀ p ∈ (splitChAux sep s).2, ∀ c ∈ p, c ∈ s) := by
  intro s
  induction s with
  | nil =>
    exact ⟨fun c hc => absurd hc (List.not_mem_nil c),
           fun p hp => absurd hp (List.not_mem_nil p)⟩
  | cons a r ih =>
    simp only [splitChAux]
    by_cases hc : a = sep
    · rw [if_pos hc]
      refine ⟨fun c hcp => absurd hcp (List.not_mem_nil c), fun p hp c hcp => ?_⟩
      rcases List.mem_cons.mp hp with rfl | hm
      · exact List.mem_cons_of_mem _ (ih.1 c hcp)
      · exact List.mem_cons_of_mem _ (ih.2 p hm c hcp)
    · rw [if_neg hc]
      refine ⟨fun c hcp => ?_,
              fun p hp c hcp => List.mem_cons_of_mem _ (ih.2 p hp c hcp)⟩
      rcases List.mem_cons.mp hcp with rfl | hm
      · exact List.mem_cons_self _ _
      · exact List.mem_cons_of_mem _ (ih.1 c hm)

/-- Characters of split segments come from the source string. -/
theorem splitCh_chars (sep : Char) (s : Str) :
    ∀ p ∈ splitCh sep s, ∀ c ∈ p, c ∈ s := by
  intro p hp
  rcases List.mem_cons.mp hp with rfl | hm
  · exact (splitChAux_chars sep s).1
  · exact (splitChAux_chars sep s).2 p hm

/-- Joining nonempty segments yields a nonempty string. -/
theorem joinDots_ne_nil : ∀ Q : List Str, Q ≠ [] → (∀ q ∈ Q, q ≠ []) →
    joinDots Q ≠ []
  | [], h, _ => absurd rfl h
  | [x], _, hq => fun hcon => hq x (by simp) hcon
  | x :: y :: rest, _, hq => by
    simp only [joinDots]
    intro hcon
    exact List.noConfusion (List.append_eq_nil.mp hcon).2

/-- Every character of a dot-join is a dot or comes from a segment. -/
theorem joinDots_chars : ∀ (Q : List Str) (c : Char), c ∈ joinDots Q →
    c = '.' ∨ ∃ q ∈ Q, c ∈ q
  | [], c, h => absurd h (List.not_mem_nil c)
  | [x], c, h => Or.inr ⟨x, by simp, h⟩
  | x :: y :: rest, c, h => by
    simp only [joinDots] at h
    rcases List.mem_append.mp h with h1 | h2
    · exact Or.inr ⟨x, by simp, h1⟩
    · rcases List.mem_cons.mp h2 with rfl | h3
      · exact Or.inl rfl
      · rcases joinDots_chars (y :: rest) c h3 with h4 | ⟨q, hqm, hcq⟩
        · exact Or.inl h4
        · exact Or.inr ⟨q, List.mem_cons_of_mem _ hqm, hcq⟩

/-- A dot-join of nonempty segments ends in the last segment's last
character, with everything before it as a prefix. -/
theorem joinDots_concat : ∀ Q : List Str, Q ≠ [] → (∀ q ∈ Q, q ≠ []) →
    ∃ t c, joinDots Q = t ++ [c] ∧ ∃ q ∈ Q, c ∈ q
  | [], h, _ => absurd rfl h
  | [x], _, hq => by
    have hx := hq x (by simp)
    exact ⟨x.dropLast, x.getLast hx, (List.dropLast_append_getLast hx).symm,
           x, by simp, List.getLast_mem hx⟩
  | x :: y :: rest, _, hq => by
    obtain ⟨t, c, hjc, q, hqm, hcq⟩ := joinDots_concat (y :: rest) (by simp)
      (fun q hm => hq q (List.mem_cons_of_mem _ hm))
    refine ⟨x ++ '.' :: t, c, ?_, q, List.mem_cons_of_mem _ hqm, hcq⟩
    simp only [joinDots, hjc]
    simp [List.append_assoc]

/-- The trailing-dot strip fixes a join whose last segment is nonempty and
dot-free. -/
theorem stripTrailingDots_join (a b : Str) (hbne : b ≠ []) (hdb : ('.') ∉ b) :
    stripTrailingDots (a ++ '.' :: b) = a ++ '.' :: b := by
  have hdec : b.dropLast ++ [b.getLast hbne] = b := List.dropLast_append_getLast hbne
  have hsh : a ++ '.' :: b = (a ++ '.' :: b.dropLast) ++ [b.getLast hbne] := by
    simp [List.append_assoc, hdec]
  rw [hsh]
  exact stripTrailingDots_concat _ _ (fun he => hdb (he ▸ List.getLast_mem hbne))

/-- Splitting inverts joining on dot-free segments. -/
theorem splitCh_joinDots : ∀ Q : List Str, Q ≠ [] → (∀ q ∈ Q, ('.') ∉ q) →
    splitCh '.' (joinDots Q) = Q
  | [], h, _ => absurd rfl h
  | [x], _, hq => by
    simp only [splitCh, joinDots]
    rw [splitChAux_nosep _ _ (hq x (by simp))]
  | x :: y :: rest, _, hq => by
    simp only [joinDots, splitCh]
    rw [splitChAux_append _ _ _ (hq x (by simp))]
    have ihr := splitCh_joinDots (y :: rest) (by simp)
      (fun q hm => hq q (List.mem_cons_of_mem _ hm))
    simp only [splitCh] at ihr
    rw [ihr]

/-- The noisy-prefix loop only removes leading labels. -/
theorem dropIgnored_mem : ∀ (l : List Str) (x : Str), x ∈ dropIgnored l → x ∈ l
  | [], _, h => h
  | [_], _, h => h
  | [_, _], _, h => h
  | a :: b :: c :: rest, x, h => by
    simp only [dropIgnored] at h
    by_cases ha : a ∈ ignoredLabels
    · rw [if_pos ha] at h
      exact List.mem_cons_of_mem _ (dropIgnored_mem (b :: c :: rest) x h)
    · rw [if_neg ha] at h
      exact h

/-- The noisy-prefix loop never goes below two labels. -/
theorem dropIgnored_len2 : ∀ l : List Str, 2 ≤ l.length →
    2 ≤ (dropIgnored l).length
  | [], h => by simp at h
  | [_], h => by simp at h
  | [a, b], h => h
  | a :: b :: c :: rest, h => by
    simp only [dropIgnored]
    by_cases ha : a ∈ ignoredLabels
    · rw [if_pos ha]
      exact dropIgnored_len2 (b :: c :: rest) (by simp only [List.length_cons]; omega)
    · rw [if_neg ha]
      exact h

/-- When three or more labels survive the noisy-prefix loop, the leading
label is not a noisy one. -/
theorem dropIgnored_head3 : ∀ (l : List Str) (x : Str) (r : List Str),
    dropIgnored l = x :: r → 2 ≤ r.length → x ∉ ignoredLabels
  | [], x, r, h, _ => List.noConfusion h
  | [a], x, r, h, hr => by
    have h2 : [a] = x :: r := h
    injection h2 with h3 h4
    subst h4
    simp at hr
  | [a, b], x, r, h, hr => by
    have h2 : [a, b] = x :: r := h
    injection h2 with h3 h4
    subst h4
    simp at hr
  | a :: b :: c :: rest, x, r, h, hr => by
    simp only [dropIgnored] at h
    by_cases ha : a ∈ ignoredLabels
    · rw [if_pos ha] at h
      exact dropIgnored_head3 (b :: c :: rest) x r h hr
    · rw [if_neg ha] at h
      injection h with h1 h2
      subst h1
      exact ha

/-- A key absent from an association table is not found. -/
theorem findPair_eq_none : ∀ (l : List (Str × Str)) (s : Str),
    (∀ p ∈ l, s ≠ p.1) → findPair l s = none
  | [], _, _ => rfl
  | (k, v) :: rest, s, h => by
    simp only [findPair]
    rw [if_neg (h (k, v) (by simp))]
    exact findPair_eq_none rest s (fun p hp => h p (List.mem_cons_of_mem _ hp))

/-- A found association value comes from a matching table entry. -/
theorem findPair_mem : ∀ (l : List (Str × Str)) (s v : Str),
    findPair l s = some v → ∃ p, p ∈ l ∧ p.1 = s ∧ p.2 = v
  | [], _, _, h => Option.noConfusion h
  | (k, w) :: rest, s, v, h => by
    simp only [findPair] at h
    by_cases hs : s = k
    · rw [if_pos hs] at h
      injection h with hv
      exact ⟨(k, w), by simp, hs.symm, hv⟩
    · rw [if_neg hs] at h
      obtain ⟨p, hp, h1, h2⟩ := findPair_mem rest s v h
      exact ⟨p, List.mem_cons_of_mem _ hp, h1, h2⟩

/-- A two-label domain with normalized labels is a fixed point of
`toBaseDomain`. -/
theorem toBaseDomain_two (a b : Str) (ha : a ≠ []) (hb : b ≠ [])
    (hda : ('.') ∉ a) (hdb : ('.') ∉ b)
    (hlf : ∀ c ∈ a ++ '.' :: b, lowerChar c = c)
    (htr : trimStr (a ++ '.' :: b) = a ++ '.' :: b) :
    toBaseDomain (a ++ '.' :: b) = a ++ '.' :: b := by
  have hlow : lowerStr (a ++ '.' :: b) = a ++ '.' :: b := lowerStr_fixed _ hlf
  have hjoin : joinDots [a, b] = a ++ '.' :: b := rfl
  have hsplit : splitCh '.' (a ++ '.' :: b) = [a, b] := by
    rw [← hjoin]
    refine splitCh_joinDots [a, b] (by simp) ?_
    intro x hx
    rcases List.mem_cons.mp hx with rfl | hx2
    · exact hda
    · rcases List.mem_cons.mp hx2 with rfl | hx3
      · exact hdb
      · exact absurd hx3 (List.not_mem_nil x)
  have hfil : List.filter (fun l => l ≠ []) [a, b] = [a, b] := by
    refine List.filter_eq_self.mpr ?_
    intro x hx
    rcases List.mem_cons.mp hx with rfl | hx2
    · exact decide_eq_true ha
    · rcases List.mem_cons.mp hx2 with rfl | hx3
      · exact decide_eq_true hb
      · exact absurd hx3 (List.not_mem_nil x)
  simp only [toBaseDomain, hlow, htr, hsplit, hfil]
  have hc1 : ¬([a, b].length ≤ 1) := by simp
  rw [if_neg hc1]
  have hdi : dropIgnored [a, b] = [a, b] := rfl
  have hc2 : [a, b].length ≤ 2 := by simp
  rw [hdi, if_pos hc2]
  exact hjoin

/-- A three-label domain whose last two labels form a known multi-part
suffix and whose head label is not noisy is a fixed point of
`toBaseDomain`. -/
theorem toBaseDomain_three (p q r : Str) (hp : p ≠ []) (hq : q ≠ []) (hr : r ≠ [])
    (hdp : ('.') ∉ p) (hdq : ('.') ∉ q) (hdr : ('.') ∉ r)
    (hlf : ∀ c ∈ p ++ '.' :: (q ++ '.' :: r), lowerChar c = c)
    (htr : trimStr (p ++ '.' :: (q ++ '.' :: r)) = p ++ '.' :: (q ++ '.' :: r))
    (hpig : p ∉ ignoredLabels)
    (hmp : q ++ '.' :: r ∈ multipartSuffixes) :
    toBaseDomain (p ++ '.' :: (q ++ '.' :: r)) = p ++ '.' :: (q ++ '.' :: r) := by
  have hlow : lowerStr (p ++ '.' :: (q ++ '.' :: r)) = p ++ '.' :: (q ++ '.' :: r) :=
    lowerStr_fixed _ hlf
  have hjoin : joinDots [p, q, r] = p ++ '.' :: (q ++ '.' :: r) := rfl
  have hsplit : splitCh '.' (p ++ '.' :: (q ++ '.' :: r)) = [p, q, r] := by
    rw [← hjoin]
    refine splitCh_joinDots [p, q, r] (by simp) ?_
    intro x hx
    rcases List.mem_cons.mp hx with rfl | hx2
    · exact hdp
    · rcases List.mem_cons.mp hx2 with rfl | hx3
      · exact hdq
      · rcases List.mem_cons.mp hx3 with rfl | hx4
        · exact hdr
        · exact absurd hx4 (List.not_mem_nil x)
  have hfil : List.filter (fun l => l ≠ []) [p, q, r] = [p, q, r] := by
    refine List.filter_eq_self.mpr ?_
    intro x hx
    rcases List.mem_cons.mp hx with rfl | hx2
    · exact decide_eq_true hp
    · rcases List.mem_cons.mp hx2 with rfl | hx3
      · exact decide_eq_true hq
      · rcases List.mem_cons.mp hx3 with rfl | hx4
        · exact decide_eq_true hr
        · exact absurd hx4 (List.not_mem_nil x)
  simp only [toBaseDomain, hlow, htr, hsplit, hfil]
  have hc1 : ¬([p, q, r].length ≤ 1) := by simp
  rw [if_neg hc1]
  have hdi : dropIgnored [p, q, r] = [p, q, r] := by
    simp only [dropIgnored]
    rw [if_neg hpig]
  rw [hdi]
  have hc2 : ¬([p, q, r].length ≤ 2) := by simp
  rw [if_neg hc2]
  have hl2 : lastN 2 [p, q, r] = [q, r] := rfl
  have hl3 : lastN 3 [p, q, r] = [p, q, r] := rfl
  rw [hl2, hl3]
  have hcmp : joinDots [q, r] ∈ multipartSuffixes ∧ 3 ≤ [p, q, r].length :=
    ⟨hmp, by simp⟩
  rw [if_pos hcmp]
  exact hjoin

/-- Outputs of `toBaseDomain` on a normalized host are fixed points of
`toBaseDomain` and remain normalized, provided the output is not a noisy
prefix glued to a multi-part public suffix and is fixed by trimming. -/
theorem toBaseDomain_canonical (s : Str)
    (hlf : ∀ c ∈ s, lowerChar c = c)
    (hst : stripTrailingDots s = s) (hne : s ≠ [])
    (hpm : prefMultipartB (toBaseDomain s) = false)
    (htr : trimStr (toBaseDomain s) = toBaseDomain s) :
    toBaseDomain (toBaseDomain s) = toBaseDomain s ∧
    (∀ c ∈ toBaseDomain s, lowerChar c = c) ∧
    stripTrailingDots (toBaseDomain s) = toBaseDomain s ∧
    toBaseDomain s ≠ [] := by
  have hPsub : ∀ x ∈ (splitCh '.' (trimStr (lowerStr s))).filter (fun l => l ≠ []),
      ('.') ∉ x ∧ x ≠ [] ∧ ∀ c ∈ x, lowerChar c = c := by
    intro x hx
    have hx2 := List.mem_filter.mp hx
    refine ⟨splitCh_no_sep '.' _ x hx2.1, of_decide_eq_true hx2.2, fun c hcx => ?_⟩
    exact lowerStr_chars s c (trimStr_subset _ c (splitCh_chars '.' _ x hx2.1 c hcx))
  by_cases hlen :
      ((splitCh '.' (trimStr (lowerStr s))).filter (fun l => l ≠ [])).length ≤ 1
  · have hB : toBaseDomain s = s := by
      simp only [toBaseDomain]
      rw [if_pos hlen]
    rw [hB]
    exact ⟨hB, hlf, hst, hne⟩
  · have hlen2 :
        2 ≤ ((splitCh '.' (trimStr (lowerStr s))).filter (fun l => l ≠ [])).length := by
      omega
    have hd2 :
        2 ≤ (dropIgnored
          ((splitCh '.' (trimStr (lowerStr s))).filter (fun l => l ≠ []))).length :=
      dropIgnored_len2 _ hlen2
    by_cases h2 :
        (dropIgnored
          ((splitCh '.' (trimStr (lowerStr s))).filter (fun l => l ≠ []))).length ≤ 2
    · have hlen22 :
          (dropIgnored
            ((splitCh '.' (trimStr (lowerStr s))).filter (fun l => l ≠ []))).length = 2 := by
        omega
      obtain ⟨a, b, hab⟩ := List.length_eq_two.mp hlen22
      have haP := hPsub a (dropIgnored_mem _ a (by rw [hab]; simp))
      have hbP := hPsub b (dropIgnored_mem _ b (by rw [hab]; simp))
      have hB : toBaseDomain s = a ++ '.' :: b := by
        simp only [toBaseDomain]
        have hc2 : [a, b].length ≤ 2 := by simp
        rw [if_neg hlen, hab, if_pos hc2]
        rfl
      have hBlf : ∀ c ∈ a ++ '.' :: b, lowerChar c = c := by
        intro c hc
        rcases List.mem_append.mp hc with h1 | hc2
        · exact haP.2.2 c h1
        · rcases List.mem_cons.mp hc2 with rfl | h3
          · decide
          · exact hbP.2.2 c h3
      refine ⟨?_, ?_, ?_, ?_⟩
      · rw [hB]
        exact toBaseDomain_two a b haP.2.1 hbP.2.1 haP.1 hbP.1 hBlf (hB ▸ htr)
      · rw [hB]
        exact hBlf
      · rw [hB]
        exact stripTrailingDots_join a b hbP.2.1 hbP.1
      · rw [hB]
        simp
    · have h3 :
          3 ≤ (dropIgnored
            ((splitCh '.' (trimStr (lowerStr s))).filter (fun l => l ≠ []))).length := by
        omega
      have hl3len :
          (lastN 3 (dropIgnored
            ((splitCh '.' (trimStr (lowerStr s))).filter (fun l => l ≠ [])))).length = 3 := by
        simp only [lastN, List.length_drop]
        omega
      obtain ⟨p, q, r, hpqr⟩ := List.length_eq_three.mp hl3len
      have hl2 :
          lastN 2 (dropIgnored
            ((splitCh '.' (trimStr (lowerStr s))).filter (fun l => l ≠ []))) = [q, r] := by
        have hdd :
            lastN 2 (dropIgnored
              ((splitCh '.' (trimStr (lowerStr s))).filter (fun l => l ≠ []))) =
            List.drop 1 (lastN 3 (dropIgnored
              ((splitCh '.' (trimStr (lowerStr s))).filter (fun l => l ≠ [])))) := by
          simp only [lastN, List.drop_drop]
          congr 1
          omega
        rw [hdd, hpqr]
        rfl
      have hmem3 : ∀ x ∈ [p, q, r],
          x ∈ dropIgnored
            ((splitCh '.' (trimStr (lowerStr s))).filter (fun l => l ≠ [])) := by
        intro x hx
        have hx2 : x ∈ lastN 3 (dropIgnored
            ((splitCh '.' (trimStr (lowerStr s))).filter (fun l => l ≠ []))) := by
          rw [hpqr]
          exact hx
        simp only [lastN] at hx2
        exact List.mem_of_mem_drop hx2
      have hpP := hPsub p (dropIgnored_mem _ p (hmem3 p (by simp)))
      have hqP := hPsub q (dropIgnored_mem _ q (hmem3 q (by simp)))
      have hrP := hPsub r (dropIgnored_mem _ r (hmem3 r (by simp)))
      by_cases hmp :
          joinDots (lastN 2 (dropIgnored
            ((splitCh '.' (trimStr (lowerStr s))).filter (fun l => l ≠ []))))
            ∈ multipartSuffixes ∧
          3 ≤ (dropIgnored
            ((splitCh '.' (trimStr (lowerStr s))).filter (fun l => l ≠ []))).length
      · have hB : toBaseDomain s = p ++ '.' :: (q ++ '.' :: r) := by
          simp only [toBaseDomain]
          rw [if_neg hlen, if_neg h2, if_pos hmp, hpqr]
          rfl
        have hmpQ : q ++ '.' :: r ∈ multipartSuffixes := by
          have hx := hmp.1
          rw [hl2] at hx
          exact hx
        have hpig : p ∉ ignoredLabels := by
          intro hpin
          have hT : prefMultipartB (toBaseDomain s) = true := by
            rw [hB]
            simp only [prefMultipartB]
            rw [List.any_eq_true]
            refine ⟨p, hpin, ?_⟩
            rw [List.any_eq_true]
            exact ⟨q ++ '.' :: r, hmpQ, decide_eq_true rfl⟩
          rw [hpm] at hT
          exact Bool.noConfusion hT
        have hBlf : ∀ c ∈ p ++ '.' :: (q ++ '.' :: r), lowerChar c = c := by
          intro c hc
          rcases List.mem_append.mp hc with h1 | hc2
          · exact hpP.2.2 c h1
          · rcases List.mem_cons.mp hc2 with rfl | hc3
            · decide
            · rcases List.mem_append.mp hc3 with h4 | hc5
              · exact hqP.2.2 c h4
              · rcases List.mem_cons.mp hc5 with rfl | h6
                · decide
                · exact hrP.2.2 c h6
        refine ⟨?_, ?_, ?_, ?_⟩
        · rw [hB]
          exact toBaseDomain_three p q r hpP.2.1 hqP.2.1 hrP.2.1 hpP.1 hqP.1 hrP.1
            hBlf (hB ▸ htr) hpig hmpQ
        · rw [hB]
          exact hBlf
        · rw [hB]
          have hsh : p ++ '.' :: (q ++ '.' :: r) = (p ++ '.' :: q) ++ '.' :: r := by
            simp [List.append_assoc]
          rw [hsh]
          exact stripTrailingDots_join _ r hrP.2.1 hrP.1
        · rw [hB]
          simp
      · have hB : toBaseDomain s = q ++ '.' :: r := by
          simp only [toBaseDomain]
          rw [if_neg hlen, if_neg h2, if_neg hmp, hl2]
          rfl
        have hBlf : ∀ c ∈ q ++ '.' :: r, lowerChar c = c := by
          intro c hc
          rcases List.mem_append.mp hc with h1 | hc2
          · exact hqP.2.2 c h1
          · rcases List.mem_cons.mp hc2 with rfl | h3
            · decide
            · exact hrP.2.2 c h3
        refine ⟨?_, ?_, ?_, ?_⟩
        · rw [hB]
          exact toBaseDomain_two q r hqP.2.1 hrP.2.1 hqP.1 hrP.1 hBlf (hB ▸ htr)
        · rw [hB]
          exact hBlf
        · rw [hB]
          exact stripTrailingDots_join q r hrP.2.1 hrP.1
        · rw [hB]
          simp

/-- Counterexample for C5: `facebookmail.com` is itself a canonicalization
output (from `bounce.facebookmail.com`), yet canonicalizing it again yields
`facebook.com`, because the exact alias table only fires on the second
pass. -/
theorem c5_counterexample :
    canonicalizeHost (strL ("bounce.facebookmail.com")) =
      some (strL ("facebookmail.com")) ∧
    canonicalizeHost (strL ("facebookmail.com")) = some (strL ("facebook.com")) := by
  decide

set_option maxHeartbeats 8000000 in
/-- Unfolding equation of `canonicalizeHost`, stated once so branch analyses
can rewrite with it instead of re-unfolding the definition. -/
theorem canonicalizeHost_eq (host : Str) :
    canonicalizeHost host =
      (if stripTrailingDots (trimStr (lowerStr host)) = [] then none
       else
         match findPair aliasExact (stripTrailingDots (trimStr (lowerStr host))) with
         | some b => some b
         | none =>
           match aliasSuffix.find? (fun pa =>
               toBaseDomain (stripTrailingDots (trimStr (lowerStr host))) = pa.1 ||
               endsW (toBaseDomain (stripTrailingDots (trimStr (lowerStr host))))
                 ('.' :: pa.1)) with
           | some pa => some pa.2
           | none => some (toBaseDomain (stripTrailingDots (trimStr (lowerStr host))))) :=
  rfl

/-- Every brand value of the exact alias table is canonical. -/
theorem aliasExact_vals : ∀ x ∈ aliasExact, canonicalizeHost x.2 = some x.2 := by
  decide

/-- Every brand value of the suffix alias table is canonical. -/
theorem aliasSuffix_vals : ∀ x ∈ aliasSuffix, canonicalizeHost x.2 = some x.2 := by
  decide

set_option maxHeartbeats 32000000 in
/-- C5 (amended): canonicalization is idempotent on its outputs except for
three flaw classes: an output that is an exact-alias key (it is re-aliased),
an output of the shape noisy-prefix dot multi-part-suffix (the noisy prefix
is dropped on the second pass), and an output not fixed by trimming (an
interior label starting or ending with whitespace exposed at the boundary).
Outside these classes, canonicalizing a canonicalization output returns it
unchanged. -/
theorem c5_canonicalize_idempotent (host d : Str)
    (h : canonicalizeHost host = some d)
    (hex : ∀ p ∈ aliasExact, d ≠ p.1)
    (hpm : prefMultipartB d = false)
    (htr : trimStr d = d) :
    canonicalizeHost d = some d := by
  rw [canonicalizeHost_eq] at h
  by_cases hh1 : stripTrailingDots (trimStr (lowerStr host)) = []
  · rw [if_pos hh1] at h
    exact Option.noConfusion h
  · rw [if_neg hh1] at h
    cases hfp : findPair aliasExact (stripTrailingDots (trimStr (lowerStr host))) with
    | some b =>
      rw [hfp] at h
      have h2 : some b = some d := h
      injection h2 with hbd
      obtain ⟨pa, hpmem, hpk, hpv⟩ := findPair_mem _ _ _ hfp
      rw [← hbd, ← hpv]
      exact aliasExact_vals pa hpmem
    | none =>
      rw [hfp] at h
      cases hsf : aliasSuffix.find?
          (fun pa => toBaseDomain (stripTrailingDots (trimStr (lowerStr host))) = pa.1 ||
            endsW (toBaseDomain (stripTrailingDots (trimStr (lowerStr host))))
              ('.' :: pa.1)) with
      | some pa =>
        rw [hsf] at h
        have h2 : some pa.2 = some d := h
        injection h2 with hpd
        rw [← hpd]
        exact aliasSuffix_vals pa (List.mem_of_find?_eq_some hsf)
      | none =>
        rw [hsf] at h
        have h2 : some (toBaseDomain (stripTrailingDots (trimStr (lowerStr host)))) =
            some d := h
        injection h2 with hbd
        subst hbd
        have hlf1 : ∀ c ∈ stripTrailingDots (trimStr (lowerStr host)),
            lowerChar c = c :=
          fun c hc =>
            lowerStr_chars host c (trimStr_subset _ c (stripTrailingDots_subset _ c hc))
        obtain ⟨hidem, hBlf, hBst, hBne⟩ :=
          toBaseDomain_canonical (stripTrailingDots (trimStr (lowerStr host)))
            hlf1 (stripTrailingDots_idem _) hh1 hpm htr
        have hlowB := lowerStr_fixed _ hBlf
        have e1 : stripTrailingDots (trimStr (lowerStr
            (toBaseDomain (stripTrailingDots (trimStr (lowerStr host)))))) =
            toBaseDomain (stripTrailingDots (trimStr (lowerStr host))) := by
          rw [hlowB, htr, hBst]
        have hfa2 : findPair aliasExact
            (toBaseDomain (stripTrailingDots (trimStr (lowerStr host)))) = none :=
          findPair_eq_none _ _ hex
        rw [canonicalizeHost_eq, e1, if_neg hBne, hfa2, hidem, hsf]

/-- Witness for C5: `example.com` is the canonicalization of
`shop.example.com`, is in none of the flaw classes, and canonicalizes to
itself. -/
theorem c5_canonicalize_idempotent_witness :
    canonicalizeHost (strL ("shop.example.com")) = some (strL ("example.com")) ∧
    canonicalizeHost (strL ("example.com")) = some (strL ("example.com")) :=
  ⟨by decide,
   c5_canonicalize_idempotent (strL ("shop.example.com")) (strL ("example.com"))
     (by decide) (by decide) (by decide) (by decide)⟩
